import Mathlib

/-!
Verification development for the `wait` package: a waitlist pooling reusable
resources (`list.go`), built on FIFO/LIFO helper queues (`queue/queue.go`).

The Go code is embedded shallowly at the granularity of its lock-protected
sections: each critical section of `Take`, `Put`, `TryTake`, `Close`, and
`handleCancel` becomes a pure function on an explicit pool state.  The
buffered one-slot handoff channels (`chan Item` with capacity 1) are modelled
as `Cell` values stored in an explicit heap `cells`, addressed by `Nat`
identifiers; `sync.Pool` (`chanPool`) becomes an explicit free-list of cell
identifiers; the set of cells owned by currently-blocked `Take` callers is
tracked in the ghost field `outstanding` so that the wake-up / cancellation
events of a blocked `Take` can only fire for a genuine waiter.
-/

namespace queue

/-- Embedding of `queue.Fifo`: a slice-backed FIFO queue (`queue/queue.go`). -/
structure Fifo (E : Type) where
  a : List E
deriving DecidableEq

/-- Embedding of `Fifo.Unshift`: append `v` at the tail of the slice. -/
def Fifo.Unshift {E : Type} (q : Fifo E) (v : E) : Fifo E :=
  ⟨q.a ++ [v]⟩

/-- Embedding of `Fifo.Shift`: remove and return the head of the slice;
`none` models the `(zero, false)` return on an empty queue. -/
def Fifo.Shift {E : Type} (q : Fifo E) : Option E × Fifo E :=
  match q.a with
  | [] => (none, q)
  | x :: rest => (some x, ⟨rest⟩)

/-- Embedding of `Fifo.DeleteFunc`: remove every element satisfying `f`
(`slices.DeleteFunc`). -/
def Fifo.DeleteFunc {E : Type} (q : Fifo E) (f : E → Bool) : Fifo E :=
  ⟨q.a.filter (fun e => !(f e))⟩

/-- Embedding of `Fifo.Len`. -/
def Fifo.Len {E : Type} (q : Fifo E) : Nat :=
  q.a.length

/-- Embedding of `queue.Lifo`: a slice-backed LIFO stack (`queue/queue.go`). -/
structure Lifo (E : Type) where
  a : List E
deriving DecidableEq

/-- Embedding of `Lifo.Push`: append `v` at the end of the slice. -/
def Lifo.Push {E : Type} (q : Lifo E) (v : E) : Lifo E :=
  ⟨q.a ++ [v]⟩

/-- Embedding of `Lifo.Pop`: remove and return the last element of the slice;
`none` models the `(zero, false)` return on an empty stack. -/
def Lifo.Pop {E : Type} (q : Lifo E) : Option E × Lifo E :=
  if q.a.length = 0 then (none, q)
  else (q.a.getLast?, ⟨q.a.dropLast⟩)

/-- Embedding of `Lifo.Len`. -/
def Lifo.Len {E : Type} (q : Lifo E) : Nat :=
  q.a.length

end queue

/-- State of one handoff channel `chan Item` of capacity 1: it is empty,
holds one undelivered value, or has been closed by `Close`. -/
inductive Cell (Item : Type) where
  | empty : Cell Item
  | filled : Item → Cell Item
  | closed : Cell Item
deriving DecidableEq

/-- Non-blocking send into a cell, as in `Put`'s
`select { case ch <- v: default: panic }`: it succeeds only on an empty
(capacity-1, unfilled, unclosed) channel; `none` models the paths that end in
a runtime panic (buffer full, or send on a closed channel). -/
def Cell.send {Item : Type} (c : Cell Item) (v : Item) : Option (Cell Item) :=
  match c with
  | .empty => some (.filled v)
  | .filled _ => none
  | .closed => none

/-- Non-blocking receive readiness of a cell, as in a `select` receive case:
`none` means the receive would block (empty open channel); a filled cell
yields its value with `ok = true` and drains to empty; a closed channel is
always ready and yields the zero value with `ok = false`. -/
def Cell.tryRecv {Item : Type} [Inhabited Item] (c : Cell Item) :
    Option (Item × Bool × Cell Item) :=
  match c with
  | .empty => none
  | .filled v => some (v, true, .empty)
  | .closed => some (default, false, .closed)

/-- Errors surfaced by the pool: `ErrClosed`, `ErrMaxWaiters`, and the
pass-through of the caller's `context.Cause(ctx)`. -/
inductive Err where
  | closed : Err
  | maxWaiters : Err
  | ctxCause : Err
deriving DecidableEq

/-- Embedding of `wait.List` (named `WList` because `List` is taken in Lean):
the pool state.  `ready`, `loads`, `waiters`, `chanPool`, `closed` mirror the
Go fields; `cells` is the explicit heap backing the waiter channels
(identifiers index into it), and `outstanding` is the ghost set of cell
identifiers owned by `Take` calls currently blocked in their `select`. -/
structure WList (Item : Type) where
  MaxItems : Nat
  MaxWaiters : Nat
  ready : queue.Lifo Item
  loads : Nat
  waiters : queue.Fifo Nat
  cells : List (Cell Item)
  chanPool : List Nat
  outstanding : List Nat
  closed : Bool
deriving DecidableEq

/-- The cell stored at identifier `c` (out-of-range reads, which never occur
in reachable states, default to an empty cell). -/
def WList.cellAt {Item : Type} (s : WList Item) (c : Nat) : Cell Item :=
  s.cells.getD c Cell.empty

/-- Result of `Put`: the boolean `accepted` return value, the post state, and
the identifier of the waiter cell served when a direct handoff happened. -/
structure PutResult (Item : Type) where
  accepted : Bool
  state : WList Item
  handoff : Option Nat
deriving DecidableEq

/-- Embedding of the `maybeHandoff` closure inside `Put`: shift the head of
the waiter queue and, if a waiter exists, perform the non-blocking send into
its cell.  `none` models the `panic("waiter: waiter channel full ...")`. -/
def WList.maybeHandoff {Item : Type} (s : WList Item) (v : Item) :
    Option (Bool × WList Item × Option Nat) :=
  match s.waiters.Shift with
  | (none, _) => some (false, s, none)
  | (some c, w') =>
    match (s.cellAt c).send v with
    | none => none
    | some cell' =>
      some (true, { s with waiters := w', cells := s.cells.set c cell' }, some c)

/-- Embedding of `List.Put`: refuse when closed; try a handoff; re-check
`closed` and re-try the handoff after taking the ready lock; otherwise push
onto the ready stack.  `none` models the double-write panic. -/
def WList.Put {Item : Type} (s : WList Item) (v : Item) : Option (PutResult Item) :=
  if s.closed then some ⟨false, s, none⟩
  else
    match s.maybeHandoff v with
    | none => none
    | some (true, s1, c) => some ⟨true, s1, c⟩
    | some (false, s1, _) =>
      if s1.closed then some ⟨false, s1, none⟩
      else
        match s1.maybeHandoff v with
        | none => none
        | some (true, s2, c) => some ⟨true, s2, c⟩
        | some (false, s2, _) =>
          some ⟨true, { s2 with ready := s2.ready.Push v }, none⟩

/-- Outcome of the entry critical section of `Take` (lines 102-147 of
`list.go`): an immediate ready item, an immediate error, or registration of a
waiter cell at the tail of the waiter queue. -/
inductive TakeEnterOutcome (Item : Type) where
  | served : Item → TakeEnterOutcome Item
  | failed : Err → TakeEnterOutcome Item
  | registered : Nat → TakeEnterOutcome Item
deriving DecidableEq

/-- Result of the entry critical section of `Take`: outcome, post state, and
whether a construction goroutine was spawned (i.e. `loads` was incremented
and `go func() { p.Put(load()) }()` was started). -/
structure TakeEnterResult (Item : Type) where
  outcome : TakeEnterOutcome Item
  state : WList Item
  spawned : Bool
deriving DecidableEq

/-- Embedding of the entry critical section of `Take`.  `ctxDone1` is the
value read for `ctx.Err() != nil` at line 117, `ctxDone2` the value read at
line 138 (cancellation may occur between the two reads), and `reuse` is
whether `chanPool.Get` returned a pooled channel (`sync.Pool` may miss). -/
def WList.takeEnter {Item : Type} (s : WList Item) (ctxDone1 ctxDone2 reuse : Bool) :
    TakeEnterResult Item :=
  match s.ready.Pop with
  | (some v, r') => ⟨.served v, { s with ready := r' }, false⟩
  | (none, _) =>
    if s.closed then ⟨.failed .closed, s, false⟩
    else if ctxDone1 then ⟨.failed .ctxCause, s, false⟩
    else if 0 < s.MaxWaiters ∧ s.MaxWaiters ≤ s.waiters.Len then
      ⟨.failed .maxWaiters, s, false⟩
    else
      let alloc : Nat × List (Cell Item) × List Nat :=
        match reuse, s.chanPool with
        | true, c :: rest => (c, s.cells, rest)
        | true, [] => (s.cells.length, s.cells ++ [Cell.empty], s.chanPool)
        | false, _ => (s.cells.length, s.cells ++ [Cell.empty], s.chanPool)
      let s1 : WList Item :=
        { s with cells := alloc.2.1, chanPool := alloc.2.2,
                 waiters := s.waiters.Unshift alloc.1,
                 outstanding := alloc.1 :: s.outstanding }
      if ¬ctxDone2 ∧ (s1.MaxItems = 0 ∨ s1.loads < s1.MaxItems) then
        ⟨.registered alloc.1, { s1 with loads := s1.loads + 1 }, true⟩
      else
        ⟨.registered alloc.1, s1, false⟩

/-- Embedding of `List.TryTake`: a non-blocking pop of the ready stack. -/
def WList.TryTake {Item : Type} (s : WList Item) : Option Item × WList Item :=
  match s.ready.Pop with
  | (v, r') => (v, { s with ready := r' })

/-- Helper for `Close`'s drain loop: each shifted waiter cell is closed. -/
def WList.closeCells {Item : Type} (cells : List (Cell Item)) :
    List Nat → List (Cell Item)
  | [] => cells
  | c :: rest => WList.closeCells (cells.set c Cell.closed) rest

/-- Embedding of `List.Close`: the first call swaps the closed flag to true
and drains the waiter queue, closing every outstanding cell; later calls
return immediately. -/
def WList.Close {Item : Type} (s : WList Item) : WList Item :=
  if s.closed then s
  else
    { s with closed := true,
             waiters := ⟨[]⟩,
             cells := WList.closeCells s.cells s.waiters.a }

/-- Result of `handleCancel`: the returned value (the Go zero value is
`default`), the returned error (`none` is a nil error), and the post state. -/
structure CancelResult (Item : Type) where
  value : Item
  err : Option Err
  state : WList Item
deriving DecidableEq

/-- Embedding of `List.handleCancel`: remove the waiter cell `ch` from the
waiter queue by predicate, then try a non-blocking receive from the cell: if
ready (a near-missed value, or a closed cell yielding the zero value) return
it with nil error, otherwise return the cancellation cause. -/
def WList.handleCancel {Item : Type} [Inhabited Item] (s : WList Item) (ch : Nat) :
    CancelResult Item :=
  let s1 : WList Item :=
    { s with waiters := s.waiters.DeleteFunc (fun wch => wch == ch) }
  match (s1.cellAt ch).tryRecv with
  | some (v, _, cell') => ⟨v, none, { s1 with cells := s1.cells.set ch cell' }⟩
  | none => ⟨default, some .ctxCause, s1⟩

/-- Events of the pool's interleaving model.  `put` covers both external
callers and the construction goroutines (both run the same `Put` path);
`takeEnter` is the entry critical section of `Take`; `takeReceive c` is the
`select` of the blocked `Take` owning cell `c` firing on its channel (value
or close); `takeCancel c` is that `select` firing on `ctx.Done()`. -/
inductive Ev (Item : Type) where
  | put : Item → Ev Item
  | takeEnter : Bool → Bool → Bool → Ev Item
  | tryTake : Ev Item
  | close : Ev Item
  | takeReceive : Nat → Ev Item
  | takeCancel : Nat → Ev Item
deriving DecidableEq

/-- Observable output of one event: the cell registered by a `takeEnter`, the
handoff `(cell, value)` performed by a `put`, whether a construction task was
spawned, and the `(value, error)` pair returned to a `Take`/`TryTake` caller
that completed in this event. -/
structure Out (Item : Type) where
  reg : Option Nat := none
  handoff : Option (Nat × Item) := none
  spawned : Bool := false
  res : Option (Item × Option Err) := none
deriving DecidableEq

/-- One interleaving step of the pool.  `none` models a panic (the
double-write assertion in `Put`); events whose guard is not ready (a
`takeReceive` on a still-empty cell, or a wake-up event for a cell with no
blocked owner) leave the state unchanged. -/
def step {Item : Type} [Inhabited Item] (s : WList Item) :
    Ev Item → Option (WList Item × Out Item)
  | .put v =>
    match s.Put v with
    | none => none
    | some r => some (r.state, { handoff := r.handoff.map (fun c => (c, v)) })
  | .takeEnter d1 d2 ru =>
    let r := s.takeEnter d1 d2 ru
    let rg : Option Nat :=
      match r.outcome with
      | .registered c => some c
      | _ => none
    let rs : Option (Item × Option Err) :=
      match r.outcome with
      | .served v => some (v, none)
      | .failed e => some (default, some e)
      | .registered _ => none
    some (r.state, { reg := rg, spawned := r.spawned, res := rs })
  | .tryTake =>
    let p := s.TryTake
    some (p.2, { res := p.1.map (fun x => (x, none)) })
  | .close => some (s.Close, {})
  | .takeReceive c =>
    if c ∈ s.outstanding then
      match (s.cellAt c).tryRecv with
      | none => some (s, {})
      | some (v, ok, cell') =>
        some ({ s with cells := s.cells.set c cell',
                       chanPool := c :: s.chanPool,
                       outstanding := s.outstanding.erase c },
              { res := some (if ok then (v, none) else (v, some Err.closed)) })
    else some (s, {})
  | .takeCancel c =>
    if c ∈ s.outstanding then
      let r := s.handleCancel c
      some ({ r.state with chanPool := c :: r.state.chanPool,
                           outstanding := r.state.outstanding.erase c },
            { res := some (r.value, r.err) })
    else some (s, {})

/-- Run a list of events from a state, collecting the outputs; `none` as soon
as any step panics. -/
def run {Item : Type} [Inhabited Item] (s : WList Item) :
    List (Ev Item) → Option (WList Item × List (Out Item))
  | [] => some (s, [])
  | e :: es =>
    match step s e with
    | none => none
    | some (s', o) =>
      match run s' es with
      | none => none
      | some (s'', os) => some (s'', o :: os)

/-- The zero-value `wait.List` with the given configuration. -/
def WList.init (Item : Type) (maxItems maxWaiters : Nat) : WList Item :=
  { MaxItems := maxItems, MaxWaiters := maxWaiters,
    ready := ⟨[]⟩, loads := 0, waiters := ⟨[]⟩,
    cells := [], chanPool := [], outstanding := [], closed := false }

/-- A pool state is reachable when some event trace from the freshly
configured pool produces it without panicking. -/
def Reachable {Item : Type} [Inhabited Item] (maxItems maxWaiters : Nat)
    (s : WList Item) : Prop :=
  ∃ tr os, run (WList.init Item maxItems maxWaiters) tr = some (s, os)

/-! ### List access helpers -/

theorem list_getD_set_self {α : Type} (l : List α) (i : Nat) (x d : α)
    (h : i < l.length) : (l.set i x).getD i d = x := by
  simp [List.getD_eq_getElem?_getD, List.getElem?_set_eq_of_lt, h]

theorem list_getD_set_ne {α : Type} (l : List α) (i j : Nat) (x d : α)
    (h : i ≠ j) : (l.set i x).getD j d = l.getD j d := by
  simp [List.getD_eq_getElem?_getD, List.getElem?_set_ne, h]

theorem list_getD_append_lt {α : Type} (l : List α) (x : α) (i : Nat) (d : α)
    (h : i < l.length) : (l ++ [x]).getD i d = l.getD i d := by
  simp [List.getD_eq_getElem?_getD, List.getElem?_append_left, h]

theorem list_getD_append_len {α : Type} (l : List α) (x d : α) :
    (l ++ [x]).getD l.length d = x := by
  simp [List.getD_eq_getElem?_getD]

theorem fifo_eq_mk {E : Type} {q : queue.Fifo E} {l : List E} (h : q.a = l) :
    q = ⟨l⟩ :=
  congrArg queue.Fifo.mk h

theorem lifo_eq_mk {E : Type} {q : queue.Lifo E} {l : List E} (h : q.a = l) :
    q = ⟨l⟩ :=
  congrArg queue.Lifo.mk h

/-! ### Shape lemmas for the pool operations -/

theorem maybeHandoff_of_nil {Item : Type} {s : WList Item} (v : Item)
    (hw : s.waiters.a = []) : s.maybeHandoff v = some (false, s, none) := by
  unfold WList.maybeHandoff
  rw [fifo_eq_mk hw]
  rfl

theorem maybeHandoff_of_cons {Item : Type} {s : WList Item} (v : Item)
    {c : Nat} {rest : List Nat} (hw : s.waiters.a = c :: rest)
    (hcell : s.cellAt c = Cell.empty) :
    s.maybeHandoff v =
      some (true,
        { s with waiters := ⟨rest⟩, cells := s.cells.set c (Cell.filled v) },
        some c) := by
  unfold WList.maybeHandoff
  rw [fifo_eq_mk hw]
  simp only [queue.Fifo.Shift, hcell, Cell.send]

/-- Put on a closed pool: refused, no state change. -/
theorem put_of_closed {Item : Type} {s : WList Item} (v : Item)
    (h : s.closed = true) : s.Put v = some ⟨false, s, none⟩ := by
  simp [WList.Put, h]

/-- Put on an open pool with a waiter at the head: direct handoff into the
head waiter's (empty) cell; the ready stack is untouched. -/
theorem put_of_waiter {Item : Type} {s : WList Item} (v : Item)
    {c : Nat} {rest : List Nat} (hcl : s.closed = false)
    (hw : s.waiters.a = c :: rest) (hcell : s.cellAt c = Cell.empty) :
    s.Put v =
      some ⟨true,
        { s with waiters := ⟨rest⟩, cells := s.cells.set c (Cell.filled v) },
        some c⟩ := by
  simp [WList.Put, hcl, maybeHandoff_of_cons v hw hcell]

/-- Put on an open pool with no waiters: the value goes onto the ready
stack. -/
theorem put_of_no_waiter {Item : Type} {s : WList Item} (v : Item)
    (hcl : s.closed = false) (hw : s.waiters.a = []) :
    s.Put v = some ⟨true, { s with ready := ⟨s.ready.a ++ [v]⟩ }, none⟩ := by
  simp [WList.Put, hcl, maybeHandoff_of_nil v hw, queue.Lifo.Push]

/-- Take's entry with a non-empty ready stack: the top item is returned
immediately; the closed flag and the context are not consulted. -/
theorem takeEnter_of_ready {Item : Type} {s : WList Item} (d1 d2 ru : Bool)
    {v : Item} {rest : List Item} (hr : s.ready.a = rest ++ [v]) :
    s.takeEnter d1 d2 ru = ⟨.served v, { s with ready := ⟨rest⟩ }, false⟩ := by
  unfold WList.takeEnter
  rw [lifo_eq_mk hr]
  simp [queue.Lifo.Pop]

/-- Take's entry on a closed pool with an empty ready stack: `ErrClosed`. -/
theorem takeEnter_of_closed {Item : Type} {s : WList Item} (d1 d2 ru : Bool)
    (hr : s.ready.a = []) (hcl : s.closed = true) :
    s.takeEnter d1 d2 ru = ⟨.failed .closed, s, false⟩ := by
  unfold WList.takeEnter
  rw [lifo_eq_mk hr]
  simp [queue.Lifo.Pop, hcl]

/-- Take's entry with a cancelled context (empty ready stack, open pool):
the cancellation cause. -/
theorem takeEnter_of_ctxDone {Item : Type} {s : WList Item} (d2 ru : Bool)
    (hr : s.ready.a = []) (hcl : s.closed = false) :
    s.takeEnter true d2 ru = ⟨.failed .ctxCause, s, false⟩ := by
  unfold WList.takeEnter
  rw [lifo_eq_mk hr]
  simp [queue.Lifo.Pop, hcl]

/-- Take's entry hitting the MaxWaiters limit: `ErrMaxWaiters`, and the
state is completely unchanged. -/
theorem takeEnter_of_maxWaiters {Item : Type} {s : WList Item} (d2 ru : Bool)
    (hr : s.ready.a = []) (hcl : s.closed = false)
    (hfull : 0 < s.MaxWaiters ∧ s.MaxWaiters ≤ s.waiters.Len) :
    s.takeEnter false d2 ru = ⟨.failed .maxWaiters, s, false⟩ := by
  unfold WList.takeEnter
  rw [lifo_eq_mk hr]
  simp [queue.Lifo.Pop, hcl, hfull]

/-- Take's entry registering a waiter with a freshly allocated cell (the
channel free-list missed or was empty). -/
theorem takeEnter_register_fresh {Item : Type} {s : WList Item} {d2 ru : Bool}
    (hr : s.ready.a = []) (hcl : s.closed = false)
    (hcap : ¬(0 < s.MaxWaiters ∧ s.MaxWaiters ≤ s.waiters.Len))
    (hfresh : ru = false ∨ s.chanPool = []) :
    s.takeEnter false d2 ru =
      if d2 = false ∧ (s.MaxItems = 0 ∨ s.loads < s.MaxItems) then
        ⟨.registered s.cells.length,
         { s with cells := s.cells ++ [Cell.empty],
                  waiters := ⟨s.waiters.a ++ [s.cells.length]⟩,
                  outstanding := s.cells.length :: s.outstanding,
                  loads := s.loads + 1 }, true⟩
      else
        ⟨.registered s.cells.length,
         { s with cells := s.cells ++ [Cell.empty],
                  waiters := ⟨s.waiters.a ++ [s.cells.length]⟩,
                  outstanding := s.cells.length :: s.outstanding }, false⟩ := by
  unfold WList.takeEnter
  rw [lifo_eq_mk hr]
  rcases hfresh with hru | hpool
  · subst hru
    simp only [queue.Lifo.Pop, queue.Fifo.Unshift, hcl]
    cases d2 <;> simp [queue.Fifo.Unshift, hcap]
  · rw [hpool]
    cases ru <;> cases d2 <;> simp [queue.Lifo.Pop, queue.Fifo.Unshift, hcl, hcap]

/-- Take's entry registering a waiter with a cell reused from the channel
free-list. -/
theorem takeEnter_register_reuse {Item : Type} {s : WList Item} {d2 : Bool}
    {c : Nat} {rest : List Nat}
    (hr : s.ready.a = []) (hcl : s.closed = false)
    (hcap : ¬(0 < s.MaxWaiters ∧ s.MaxWaiters ≤ s.waiters.Len))
    (hpool : s.chanPool = c :: rest) :
    s.takeEnter false d2 true =
      if d2 = false ∧ (s.MaxItems = 0 ∨ s.loads < s.MaxItems) then
        ⟨.registered c,
         { s with chanPool := rest,
                  waiters := ⟨s.waiters.a ++ [c]⟩,
                  outstanding := c :: s.outstanding,
                  loads := s.loads + 1 }, true⟩
      else
        ⟨.registered c,
         { s with chanPool := rest,
                  waiters := ⟨s.waiters.a ++ [c]⟩,
                  outstanding := c :: s.outstanding }, false⟩ := by
  unfold WList.takeEnter
  rw [lifo_eq_mk hr, hpool]
  cases d2 <;> simp [queue.Lifo.Pop, queue.Fifo.Unshift, hcl, hcap]

theorem lifo_pop_eq {E : Type} (q : queue.Lifo E) :
    q.Pop = (q.a.getLast?, ⟨q.a.dropLast⟩) := by
  unfold queue.Lifo.Pop
  by_cases h : q.a.length = 0
  · have h0 : q.a = [] := List.length_eq_zero.mp h
    simp [h, h0, lifo_eq_mk h0]
  · simp [h]

/-- TryTake pops the top of the ready stack and changes nothing else. -/
theorem tryTake_eq {Item : Type} (s : WList Item) :
    s.TryTake = (s.ready.a.getLast?, { s with ready := ⟨s.ready.a.dropLast⟩ }) := by
  unfold WList.TryTake
  rw [lifo_pop_eq]

/-- Close on an already-closed pool does nothing. -/
theorem close_of_closed {Item : Type} {s : WList Item} (h : s.closed = true) :
    s.Close = s := by
  simp [WList.Close, h]

/-- The first Close sets the flag, empties the waiter queue and closes the
drained cells. -/
theorem close_of_open {Item : Type} {s : WList Item} (h : s.closed = false) :
    s.Close = { s with closed := true, waiters := ⟨[]⟩,
                       cells := WList.closeCells s.cells s.waiters.a } := by
  simp [WList.Close, h]

theorem closeCells_length {Item : Type} (cells : List (Cell Item)) (ws : List Nat) :
    (WList.closeCells cells ws).length = cells.length := by
  induction ws generalizing cells with
  | nil => rfl
  | cons w rest ih => simp [WList.closeCells, ih, List.length_set]

theorem closeCells_getD_not_mem {Item : Type} (cells : List (Cell Item))
    (ws : List Nat) (c : Nat) (h : c ∉ ws) :
    (WList.closeCells cells ws).getD c Cell.empty = cells.getD c Cell.empty := by
  induction ws generalizing cells with
  | nil => rfl
  | cons w rest ih =>
    have hcw : w ≠ c := fun hh => h (hh ▸ List.mem_cons_self w rest)
    have hcr : c ∉ rest := fun hh => h (List.mem_cons_of_mem w hh)
    rw [WList.closeCells, ih _ hcr, list_getD_set_ne _ _ _ _ _ hcw]

theorem closeCells_getD_mem {Item : Type} (cells : List (Cell Item))
    (ws : List Nat) (c : Nat) (h : c ∈ ws) (hlt : c < cells.length) :
    (WList.closeCells cells ws).getD c Cell.empty = Cell.closed := by
  induction ws generalizing cells with
  | nil => cases h
  | cons w rest ih =>
    by_cases hcr : c ∈ rest
    · exact ih (cells.set w Cell.closed) hcr (by simpa [List.length_set] using hlt)
    · have hcw : c = w := by
        rcases List.mem_cons.mp h with h1 | h1
        · exact h1
        · exact absurd h1 hcr
      subst hcw
      rw [WList.closeCells, closeCells_getD_not_mem _ _ _ hcr,
        list_getD_set_self _ _ _ _ hlt]

/-- handleCancel when the cell holds a near-missed value: the value is
returned with nil error and the cell drains. -/
theorem handleCancel_of_filled {Item : Type} [Inhabited Item] {s : WList Item}
    {ch : Nat} {v : Item} (h : s.cellAt ch = Cell.filled v) :
    s.handleCancel ch =
      ⟨v, none,
       { s with waiters := ⟨s.waiters.a.filter (fun w => !(w == ch))⟩,
                cells := s.cells.set ch Cell.empty }⟩ := by
  have h' : s.cells[ch]?.getD Cell.empty = Cell.filled v := by
    simpa [WList.cellAt, List.getD_eq_getElem?_getD] using h
  unfold WList.handleCancel
  simp only [WList.cellAt, queue.Fifo.DeleteFunc, List.getD_eq_getElem?_getD]
  rw [h']
  simp [Cell.tryRecv]

/-- handleCancel when the cell was closed by Close: the zero value is
returned with nil error (receive from a closed channel is always ready). -/
theorem handleCancel_of_closed {Item : Type} [Inhabited Item] {s : WList Item}
    {ch : Nat} (h : s.cellAt ch = Cell.closed) :
    s.handleCancel ch =
      ⟨default, none,
       { s with waiters := ⟨s.waiters.a.filter (fun w => !(w == ch))⟩,
                cells := s.cells.set ch Cell.closed }⟩ := by
  have h' : s.cells[ch]?.getD Cell.empty = Cell.closed := by
    simpa [WList.cellAt, List.getD_eq_getElem?_getD] using h
  unfold WList.handleCancel
  simp only [WList.cellAt, queue.Fifo.DeleteFunc, List.getD_eq_getElem?_getD]
  rw [h']
  simp [Cell.tryRecv]

/-- handleCancel when no value arrived: the cancellation cause is returned.
-/
theorem handleCancel_of_empty {Item : Type} [Inhabited Item] {s : WList Item}
    {ch : Nat} (h : s.cellAt ch = Cell.empty) :
    s.handleCancel ch =
      ⟨default, some .ctxCause,
       { s with waiters := ⟨s.waiters.a.filter (fun w => !(w == ch))⟩ }⟩ := by
  have h' : s.cells[ch]?.getD Cell.empty = Cell.empty := by
    simpa [WList.cellAt, List.getD_eq_getElem?_getD] using h
  unfold WList.handleCancel
  simp only [WList.cellAt, queue.Fifo.DeleteFunc, List.getD_eq_getElem?_getD]
  rw [h']
  simp [Cell.tryRecv]

/-! ### The pool invariant -/

/-- Invariant holding in all reachable pool states.  The key facts: cell
identifiers queued as waiters or pooled in the free-list are in range,
mutually distinct, and (while the pool is open) their cells are empty; the
waiter queue is contained in the ghost set of cells owned by blocked Take
callers; closed cells exist only in a closed pool; a closed pool has an empty
waiter queue; `loads` respects `MaxItems` and the waiter queue respects
`MaxWaiters`. -/
structure PoolInv {Item : Type} (s : WList Item) : Prop where
  waitSub : ∀ c ∈ s.waiters.a, c ∈ s.outstanding
  waitNodup : s.waiters.a.Nodup
  outNodup : s.outstanding.Nodup
  poolNodup : s.chanPool.Nodup
  outPoolDisj : ∀ c ∈ s.outstanding, c ∉ s.chanPool
  outLt : ∀ c ∈ s.outstanding, c < s.cells.length
  poolLt : ∀ c ∈ s.chanPool, c < s.cells.length
  waitEmpty : ∀ c ∈ s.waiters.a, s.cellAt c = Cell.empty
  poolEmpty : s.closed = false → ∀ c ∈ s.chanPool, s.cellAt c = Cell.empty
  cellClosedFlag : ∀ c : Nat, s.cellAt c = Cell.closed → s.closed = true
  closedNoWait : s.closed = true → s.waiters.a = []
  loadsLe : 0 < s.MaxItems → s.loads ≤ s.MaxItems
  waitLe : 0 < s.MaxWaiters → s.waiters.a.length ≤ s.MaxWaiters

theorem inv_init (Item : Type) (maxItems maxWaiters : Nat) :
    PoolInv (WList.init Item maxItems maxWaiters) := by
  constructor <;> simp [WList.init, WList.cellAt]

/-- Under the invariant, Put takes exactly one of three shapes: refused on a
closed pool, a handoff to the head waiter, or a push onto the ready stack. -/
theorem put_shape {Item : Type} {s : WList Item} (v : Item) (hI : PoolInv s) :
    (s.closed = true ∧ s.Put v = some ⟨false, s, none⟩) ∨
    (∃ c rest, s.closed = false ∧ s.waiters.a = c :: rest ∧
      s.Put v = some ⟨true,
        { s with waiters := ⟨rest⟩, cells := s.cells.set c (Cell.filled v) },
        some c⟩) ∨
    (s.closed = false ∧ s.waiters.a = [] ∧
      s.Put v = some ⟨true, { s with ready := ⟨s.ready.a ++ [v]⟩ }, none⟩) := by
  cases hcl : s.closed with
  | true => exact Or.inl ⟨rfl, put_of_closed v hcl⟩
  | false =>
    cases hw : s.waiters.a with
    | nil => exact Or.inr (Or.inr ⟨rfl, rfl, hcl ▸ put_of_no_waiter v hcl hw⟩)
    | cons c rest =>
      have hcell : s.cellAt c = Cell.empty :=
        hI.waitEmpty c (hw ▸ List.mem_cons_self c rest)
      exact Or.inr (Or.inl ⟨c, rest, rfl, rfl, hcl ▸ put_of_waiter v hcl hw hcell⟩)

/-- Under the invariant, Put never panics. -/
theorem put_total {Item : Type} {s : WList Item} (v : Item) (hI : PoolInv s) :
    ∃ r, s.Put v = some r := by
  rcases put_shape v hI with ⟨-, h⟩ | ⟨c, rest, -, -, h⟩ | ⟨-, -, h⟩ <;>
    exact ⟨_, h⟩

theorem put_inv {Item : Type} {s : WList Item} {v : Item} {r : PutResult Item}
    (hI : PoolInv s) (h : s.Put v = some r) : PoolInv r.state := by
  rcases put_shape v hI with ⟨hcl, hp⟩ | ⟨c, rest, hcl, hw, hp⟩ | ⟨hcl, hw, hp⟩
  · rw [Option.some.inj (h.symm.trans hp)]
    exact hI
  · rw [Option.some.inj (h.symm.trans hp)]
    have hcmem : c ∈ s.waiters.a := hw ▸ List.mem_cons_self c rest
    have hco : c ∈ s.outstanding := hI.waitSub c hcmem
    have hclt : c < s.cells.length := hI.outLt c hco
    have hrest : ∀ d ∈ rest, d ∈ s.waiters.a :=
      fun d hd => hw ▸ List.mem_cons_of_mem c hd
    have hnodup : (c :: rest).Nodup := hw ▸ hI.waitNodup
    have hcnotrest : c ∉ rest := (List.nodup_cons.mp hnodup).1
    refine ⟨?_, ?_, hI.outNodup, hI.poolNodup, hI.outPoolDisj, ?_, ?_, ?_, ?_,
      ?_, ?_, hI.loadsLe, ?_⟩
    · exact fun d hd => hI.waitSub d (hrest d hd)
    · exact (List.nodup_cons.mp hnodup).2
    · simpa [List.length_set] using hI.outLt
    · simpa [List.length_set] using hI.poolLt
    · intro d hd
      have hdc : c ≠ d := fun hh => hcnotrest (hh ▸ hd)
      show (s.cells.set c (Cell.filled v)).getD d Cell.empty = Cell.empty
      rw [list_getD_set_ne _ _ _ _ _ hdc]
      exact hI.waitEmpty d (hrest d hd)
    · intro hcl2 d hd
      have hdc : c ≠ d := fun hh => hI.outPoolDisj c hco (hh ▸ hd)
      show (s.cells.set c (Cell.filled v)).getD d Cell.empty = Cell.empty
      rw [list_getD_set_ne _ _ _ _ _ hdc]
      exact hI.poolEmpty hcl d hd
    · intro d hd
      have hd2 : (s.cells.set c (Cell.filled v)).getD d Cell.empty = Cell.closed := hd
      rcases eq_or_ne c d with hh | hh
      · subst hh
        rw [list_getD_set_self _ _ _ _ hclt] at hd2
        cases hd2
      · rw [list_getD_set_ne _ _ _ _ _ hh] at hd2
        exact hI.cellClosedFlag d hd2
    · intro hcl2
      have hcl3 : s.closed = true := hcl2
      cases hcl.symm.trans hcl3
    · intro hW
      have hle := hI.waitLe hW
      rw [hw] at hle
      show rest.length <= s.MaxWaiters
      simpa using Nat.le_trans (Nat.le_succ rest.length) hle
  · rw [Option.some.inj (h.symm.trans hp)]
    refine ⟨hI.waitSub, hI.waitNodup, hI.outNodup, hI.poolNodup, hI.outPoolDisj,
      hI.outLt, hI.poolLt, hI.waitEmpty, hI.poolEmpty, hI.cellClosedFlag,
      ?_, hI.loadsLe, hI.waitLe⟩
    intro hcl2
    have hcl3 : s.closed = true := hcl2
    cases hcl.symm.trans hcl3

theorem register_fresh_inv {Item : Type} {s : WList Item} (hI : PoolInv s)
    (hcl : s.closed = false)
    (hcap : ¬(0 < s.MaxWaiters ∧ s.MaxWaiters ≤ s.waiters.Len)) (L : Nat)
    (hL : L = s.loads ∨ (L = s.loads + 1 ∧ (s.MaxItems = 0 ∨ s.loads < s.MaxItems))) :
    PoolInv { s with cells := s.cells ++ [Cell.empty],
                     waiters := ⟨s.waiters.a ++ [s.cells.length]⟩,
                     outstanding := s.cells.length :: s.outstanding,
                     loads := L } := by
  have houtlt := hI.outLt
  have hpoollt := hI.poolLt
  have hnotwait : s.cells.length ∉ s.waiters.a := by
    intro hmem
    exact absurd rfl (Nat.ne_of_lt (houtlt _ (hI.waitSub _ hmem)))
  have hnotout : s.cells.length ∉ s.outstanding := by
    intro hmem
    exact absurd rfl (Nat.ne_of_lt (houtlt _ hmem))
  have hnotpool : s.cells.length ∉ s.chanPool := by
    intro hmem
    exact absurd rfl (Nat.ne_of_lt (hpoollt _ hmem))
  constructor
  · intro d hd
    rcases List.mem_append.mp hd with hd | hd
    · exact List.mem_cons_of_mem _ (hI.waitSub d hd)
    · simp only [List.mem_singleton] at hd
      exact hd ▸ List.mem_cons_self _ _
  · simp [List.nodup_append, hI.waitNodup, hnotwait]
  · exact List.nodup_cons.mpr ⟨hnotout, hI.outNodup⟩
  · exact hI.poolNodup
  · intro d hd
    rcases List.mem_cons.mp hd with hd | hd
    · exact hd ▸ hnotpool
    · exact hI.outPoolDisj d hd
  · intro d hd
    have hlen : (s.cells ++ [Cell.empty]).length = s.cells.length + 1 := by simp
    rw [hlen]
    rcases List.mem_cons.mp hd with hd | hd
    · exact hd ▸ Nat.lt_succ_self _
    · exact Nat.lt_succ_of_lt (houtlt d hd)
  · intro d hd
    have hlen : (s.cells ++ [Cell.empty]).length = s.cells.length + 1 := by simp
    rw [hlen]
    exact Nat.lt_succ_of_lt (hpoollt d hd)
  · intro d hd
    show (s.cells ++ [Cell.empty]).getD d Cell.empty = Cell.empty
    rcases List.mem_append.mp hd with hd | hd
    · rw [list_getD_append_lt _ _ _ _ (houtlt _ (hI.waitSub d hd))]
      exact hI.waitEmpty d hd
    · simp only [List.mem_singleton] at hd
      rw [hd, list_getD_append_len]
  · intro hcl2 d hd
    show (s.cells ++ [Cell.empty]).getD d Cell.empty = Cell.empty
    rw [list_getD_append_lt _ _ _ _ (hpoollt d hd)]
    exact hI.poolEmpty hcl d hd
  · intro d hd
    have hd2 : (s.cells ++ [Cell.empty]).getD d Cell.empty = Cell.closed := hd
    show s.closed = true
    rcases Nat.lt_trichotomy d s.cells.length with hlt | heq | hgt
    · rw [list_getD_append_lt _ _ _ _ hlt] at hd2
      exact hI.cellClosedFlag d hd2
    · subst heq
      rw [list_getD_append_len] at hd2
      cases hd2
    · rw [List.getD_eq_default _ _ (by simpa using hgt)] at hd2
      cases hd2
  · intro hcl2
    have hcl3 : s.closed = true := hcl2
    cases hcl.symm.trans hcl3
  · intro hM
    rcases hL with hL | ⟨hL, hbud⟩
    · exact hL ▸ hI.loadsLe hM
    · rcases hbud with h0 | hlt
      · rw [h0] at hM
        cases hM
      · show L ≤ s.MaxItems
        rw [hL]
        exact hlt
  · intro hW
    show (s.waiters.a ++ [s.cells.length]).length ≤ s.MaxWaiters
    have hlt : s.waiters.a.length < s.MaxWaiters := by
      rcases Nat.lt_or_ge s.waiters.a.length s.MaxWaiters with h | h
      · exact h
      · exact absurd ⟨hW, h⟩ hcap
    simpa using hlt

theorem register_reuse_inv {Item : Type} {s : WList Item} {c : Nat}
    {rest : List Nat} (hI : PoolInv s) (hcl : s.closed = false)
    (hcap : ¬(0 < s.MaxWaiters ∧ s.MaxWaiters ≤ s.waiters.Len))
    (hpool : s.chanPool = c :: rest) (L : Nat)
    (hL : L = s.loads ∨ (L = s.loads + 1 ∧ (s.MaxItems = 0 ∨ s.loads < s.MaxItems))) :
    PoolInv { s with chanPool := rest,
                     waiters := ⟨s.waiters.a ++ [c]⟩,
                     outstanding := c :: s.outstanding,
                     loads := L } := by
  have hcpool : c ∈ s.chanPool := hpool ▸ List.mem_cons_self c rest
  have hcnotout : c ∉ s.outstanding := fun hmem => hI.outPoolDisj c hmem hcpool
  have hcnotwait : c ∉ s.waiters.a := fun hmem => hcnotout (hI.waitSub c hmem)
  have hpoolnodup : (c :: rest).Nodup := hpool ▸ hI.poolNodup
  have hcnotrest : c ∉ rest := (List.nodup_cons.mp hpoolnodup).1
  constructor
  · intro d hd
    rcases List.mem_append.mp hd with hd | hd
    · exact List.mem_cons_of_mem _ (hI.waitSub d hd)
    · simp only [List.mem_singleton] at hd
      exact hd ▸ List.mem_cons_self _ _
  · simp [List.nodup_append, hI.waitNodup, hcnotwait]
  · exact List.nodup_cons.mpr ⟨hcnotout, hI.outNodup⟩
  · exact (List.nodup_cons.mp hpoolnodup).2
  · intro d hd
    rcases List.mem_cons.mp hd with hd | hd
    · exact hd ▸ hcnotrest
    · intro hdr
      exact hI.outPoolDisj d hd (hpool ▸ List.mem_cons_of_mem c hdr)
  · intro d hd
    rcases List.mem_cons.mp hd with hd | hd
    · exact hd ▸ hI.poolLt c hcpool
    · exact hI.outLt d hd
  · intro d hd
    exact hI.poolLt d (hpool ▸ List.mem_cons_of_mem c hd)
  · intro d hd
    show s.cells.getD d Cell.empty = Cell.empty
    rcases List.mem_append.mp hd with hd | hd
    · exact hI.waitEmpty d hd
    · simp only [List.mem_singleton] at hd
      exact hd ▸ hI.poolEmpty hcl c hcpool
  · intro hcl2 d hd
    exact hI.poolEmpty hcl d (hpool ▸ List.mem_cons_of_mem c hd)
  · intro d hd
    exact hI.cellClosedFlag d hd
  · intro hcl2
    have hcl3 : s.closed = true := hcl2
    cases hcl.symm.trans hcl3
  · intro hM
    rcases hL with hL | ⟨hL, hbud⟩
    · exact hL ▸ hI.loadsLe hM
    · rcases hbud with h0 | hlt
      · rw [h0] at hM
        cases hM
      · show L ≤ s.MaxItems
        rw [hL]
        exact hlt
  · intro hW
    show (s.waiters.a ++ [c]).length ≤ s.MaxWaiters
    have hlt : s.waiters.a.length < s.MaxWaiters := by
      rcases Nat.lt_or_ge s.waiters.a.length s.MaxWaiters with h | h
      · exact h
      · exact absurd ⟨hW, h⟩ hcap
    simpa using hlt

theorem takeEnter_inv {Item : Type} {s : WList Item} (d1 d2 ru : Bool)
    (hI : PoolInv s) : PoolInv (s.takeEnter d1 d2 ru).state := by
  rcases List.eq_nil_or_concat s.ready.a with hr | ⟨rest, v, hr0⟩
  case inr =>
    have hr : s.ready.a = rest ++ [v] := by simpa using hr0
    rw [takeEnter_of_ready d1 d2 ru hr]
    exact ⟨hI.waitSub, hI.waitNodup, hI.outNodup, hI.poolNodup, hI.outPoolDisj,
      hI.outLt, hI.poolLt, hI.waitEmpty, hI.poolEmpty, hI.cellClosedFlag,
      hI.closedNoWait, hI.loadsLe, hI.waitLe⟩
  cases hcl : s.closed with
  | true =>
    rw [takeEnter_of_closed d1 d2 ru hr hcl]
    exact hI
  | false =>
    cases d1 with
    | true =>
      rw [takeEnter_of_ctxDone d2 ru hr hcl]
      exact hI
    | false =>
      by_cases hcap : 0 < s.MaxWaiters ∧ s.MaxWaiters ≤ s.waiters.Len
      · rw [takeEnter_of_maxWaiters d2 ru hr hcl hcap]
        exact hI
      · cases ru with
        | true =>
          rcases hpool : s.chanPool with - | ⟨c, prest⟩
          · rw [takeEnter_register_fresh hr hcl hcap (Or.inr hpool)]
            by_cases hsp : d2 = false ∧ (s.MaxItems = 0 ∨ s.loads < s.MaxItems)
            · rw [if_pos hsp]
              exact register_fresh_inv hI hcl hcap _ (Or.inr ⟨rfl, hsp.2⟩)
            · rw [if_neg hsp]
              exact register_fresh_inv hI hcl hcap _ (Or.inl rfl)
          · rw [takeEnter_register_reuse hr hcl hcap hpool]
            by_cases hsp : d2 = false ∧ (s.MaxItems = 0 ∨ s.loads < s.MaxItems)
            · rw [if_pos hsp]
              exact register_reuse_inv hI hcl hcap hpool _ (Or.inr ⟨rfl, hsp.2⟩)
            · rw [if_neg hsp]
              exact register_reuse_inv hI hcl hcap hpool _ (Or.inl rfl)
        | false =>
          rw [takeEnter_register_fresh hr hcl hcap (Or.inl rfl)]
          by_cases hsp : d2 = false ∧ (s.MaxItems = 0 ∨ s.loads < s.MaxItems)
          · rw [if_pos hsp]
            exact register_fresh_inv hI hcl hcap _ (Or.inr ⟨rfl, hsp.2⟩)
          · rw [if_neg hsp]
            exact register_fresh_inv hI hcl hcap _ (Or.inl rfl)

theorem close_inv {Item : Type} {s : WList Item} (hI : PoolInv s) :
    PoolInv s.Close := by
  cases hcl : s.closed with
  | true =>
    rw [close_of_closed hcl]
    exact hI
  | false =>
    rw [close_of_open hcl]
    constructor
    · intro d hd
      cases hd
    · exact List.nodup_nil
    · exact hI.outNodup
    · exact hI.poolNodup
    · exact hI.outPoolDisj
    · intro d hd
      show d < (WList.closeCells s.cells s.waiters.a).length
      rw [closeCells_length]
      exact hI.outLt d hd
    · intro d hd
      show d < (WList.closeCells s.cells s.waiters.a).length
      rw [closeCells_length]
      exact hI.poolLt d hd
    · intro d hd
      cases hd
    · intro hcl2
      cases hcl2
    · intro d hd
      rfl
    · intro hcl2
      rfl
    · exact hI.loadsLe
    · intro hW
      exact Nat.zero_le _

theorem tryTake_inv {Item : Type} {s : WList Item} (hI : PoolInv s) :
    PoolInv (s.TryTake).2 := by
  rw [tryTake_eq]
  exact ⟨hI.waitSub, hI.waitNodup, hI.outNodup, hI.poolNodup, hI.outPoolDisj,
    hI.outLt, hI.poolLt, hI.waitEmpty, hI.poolEmpty, hI.cellClosedFlag,
    hI.closedNoWait, hI.loadsLe, hI.waitLe⟩

theorem receive_release_inv {Item : Type} {s : WList Item} {c : Nat}
    (hI : PoolInv s) (hc : c ∈ s.outstanding) (newCell : Cell Item)
    (hnc : newCell = Cell.empty ∨ (newCell = Cell.closed ∧ s.cellAt c = Cell.closed))
    (hne : s.cellAt c ≠ Cell.empty) :
    PoolInv { s with cells := s.cells.set c newCell,
                     chanPool := c :: s.chanPool,
                     outstanding := s.outstanding.erase c } := by
  have hclt : c < s.cells.length := hI.outLt c hc
  have hcnotpool : c ∉ s.chanPool := hI.outPoolDisj c hc
  have hcnotwait : c ∉ s.waiters.a := fun hm => hne (hI.waitEmpty c hm)
  constructor
  · intro d hd
    have hdc : d ≠ c := fun hh => hcnotwait (hh ▸ hd)
    exact (List.Nodup.mem_erase_iff hI.outNodup).mpr ⟨hdc, hI.waitSub d hd⟩
  · exact hI.waitNodup
  · exact hI.outNodup.erase c
  · exact List.nodup_cons.mpr ⟨hcnotpool, hI.poolNodup⟩
  · intro d hd
    have hdm := (List.Nodup.mem_erase_iff hI.outNodup).mp hd
    intro hdp
    rcases List.mem_cons.mp hdp with hh | hh
    · exact hdm.1 hh
    · exact hI.outPoolDisj d hdm.2 hh
  · intro d hd
    show d < (s.cells.set c newCell).length
    rw [List.length_set]
    exact hI.outLt d (List.mem_of_mem_erase hd)
  · intro d hd
    show d < (s.cells.set c newCell).length
    rw [List.length_set]
    rcases List.mem_cons.mp hd with hh | hh
    · exact hh ▸ hclt
    · exact hI.poolLt d hh
  · intro d hd
    have hdc : c ≠ d := fun hh => hcnotwait (hh ▸ hd)
    show (s.cells.set c newCell).getD d Cell.empty = Cell.empty
    rw [list_getD_set_ne _ _ _ _ _ hdc]
    exact hI.waitEmpty d hd
  · intro hcl d hd
    rcases List.mem_cons.mp hd with hh | hh
    · subst hh
      show (s.cells.set d newCell).getD d Cell.empty = Cell.empty
      rw [list_getD_set_self _ _ _ _ hclt]
      rcases hnc with h1 | ⟨h1, h2⟩
      · exact h1
      · exact absurd (hI.cellClosedFlag d h2) (by rw [hcl]; nofun)
    · have hdc : c ≠ d := fun h2 => hcnotpool (h2 ▸ hh)
      show (s.cells.set c newCell).getD d Cell.empty = Cell.empty
      rw [list_getD_set_ne _ _ _ _ _ hdc]
      exact hI.poolEmpty hcl d hh
  · intro d hd
    have hd2 : (s.cells.set c newCell).getD d Cell.empty = Cell.closed := hd
    rcases eq_or_ne c d with hh | hh
    · subst hh
      rw [list_getD_set_self _ _ _ _ hclt] at hd2
      rcases hnc with h1 | ⟨h1, h2⟩
      · cases h1.symm.trans hd2
      · exact hI.cellClosedFlag c h2
    · rw [list_getD_set_ne _ _ _ _ _ hh] at hd2
      exact hI.cellClosedFlag d hd2
  · exact hI.closedNoWait
  · exact hI.loadsLe
  · exact hI.waitLe

theorem cancel_release_inv {Item : Type} {s : WList Item} {c : Nat}
    (hI : PoolInv s) (hc : c ∈ s.outstanding) (newCells : List (Cell Item))
    (hcells : (newCells = s.cells ∧ s.cellAt c = Cell.empty) ∨
              newCells = s.cells.set c Cell.empty ∨
              (newCells = s.cells.set c Cell.closed ∧ s.cellAt c = Cell.closed)) :
    PoolInv { s with waiters := ⟨s.waiters.a.filter (fun w => !(w == c))⟩,
                     cells := newCells,
                     chanPool := c :: s.chanPool,
                     outstanding := s.outstanding.erase c } := by
  have hclt : c < s.cells.length := hI.outLt c hc
  have hcnotpool : c ∉ s.chanPool := hI.outPoolDisj c hc
  have hlen : newCells.length = s.cells.length := by
    rcases hcells with ⟨h1, -⟩ | h1 | ⟨h1, -⟩ <;> simp [h1, List.length_set]
  have hgetne : ∀ d : Nat, c ≠ d →
      newCells.getD d Cell.empty = s.cells.getD d Cell.empty := by
    intro d hdc
    rcases hcells with ⟨h1, -⟩ | h1 | ⟨h1, -⟩
    · rw [h1]
    · rw [h1, list_getD_set_ne _ _ _ _ _ hdc]
    · rw [h1, list_getD_set_ne _ _ _ _ _ hdc]
  have hmemfilter : ∀ d, d ∈ s.waiters.a.filter (fun w => !(w == c)) →
      d ∈ s.waiters.a ∧ d ≠ c := by
    intro d hd
    have h2 := List.of_mem_filter hd
    refine ⟨List.mem_of_mem_filter hd, ?_⟩
    intro hh
    rw [hh] at h2
    simp at h2
  constructor
  · intro d hd
    obtain ⟨hmem, hdc⟩ := hmemfilter d hd
    exact (List.Nodup.mem_erase_iff hI.outNodup).mpr ⟨hdc, hI.waitSub d hmem⟩
  · exact hI.waitNodup.filter _
  · exact hI.outNodup.erase c
  · exact List.nodup_cons.mpr ⟨hcnotpool, hI.poolNodup⟩
  · intro d hd
    have hdm := (List.Nodup.mem_erase_iff hI.outNodup).mp hd
    intro hdp
    rcases List.mem_cons.mp hdp with hh | hh
    · exact hdm.1 hh
    · exact hI.outPoolDisj d hdm.2 hh
  · intro d hd
    show d < newCells.length
    rw [hlen]
    exact hI.outLt d (List.mem_of_mem_erase hd)
  · intro d hd
    show d < newCells.length
    rw [hlen]
    rcases List.mem_cons.mp hd with hh | hh
    · exact hh ▸ hclt
    · exact hI.poolLt d hh
  · intro d hd
    obtain ⟨hmem, hdc⟩ := hmemfilter d hd
    show newCells.getD d Cell.empty = Cell.empty
    rw [hgetne d (fun hh => hdc hh.symm)]
    exact hI.waitEmpty d hmem
  · intro hcl d hd
    rcases List.mem_cons.mp hd with hh | hh
    · subst hh
      show newCells.getD d Cell.empty = Cell.empty
      rcases hcells with ⟨h1, h2⟩ | h1 | ⟨h1, h2⟩
      · rw [h1]
        exact h2
      · rw [h1, list_getD_set_self _ _ _ _ hclt]
      · exact absurd (hI.cellClosedFlag d h2) (by rw [hcl]; nofun)
    · have hdc : c ≠ d := fun h2 => hcnotpool (h2 ▸ hh)
      show newCells.getD d Cell.empty = Cell.empty
      rw [hgetne d hdc]
      exact hI.poolEmpty hcl d hh
  · intro d hd
    have hd2 : newCells.getD d Cell.empty = Cell.closed := hd
    rcases eq_or_ne c d with hh | hh
    · subst hh
      rcases hcells with ⟨h1, h2⟩ | h1 | ⟨h1, h2⟩
      · rw [h1] at hd2
        cases h2.symm.trans hd2
      · rw [h1, list_getD_set_self _ _ _ _ hclt] at hd2
        cases hd2
      · exact hI.cellClosedFlag c h2
    · rw [hgetne d hh] at hd2
      exact hI.cellClosedFlag d hd2
  · intro hcl
    have hwa : s.waiters.a = [] := hI.closedNoWait hcl
    show s.waiters.a.filter (fun w => !(w == c)) = []
    rw [hwa]
    rfl
  · exact hI.loadsLe
  · intro hW
    show (s.waiters.a.filter (fun w => !(w == c))).length ≤ s.MaxWaiters
    exact Nat.le_trans (s.waiters.a.length_filter_le _) (hI.waitLe hW)

/-- Every interleaving step preserves the pool invariant. -/
theorem step_inv {Item : Type} [Inhabited Item] {s s' : WList Item}
    {e : Ev Item} {o : Out Item} (hI : PoolInv s)
    (h : step s e = some (s', o)) : PoolInv s' := by
  cases e with
  | put v =>
    simp only [step] at h
    rcases hp : s.Put v with - | r
    · rw [hp] at h
      cases h
    · rw [hp] at h
      have h2 := Option.some.inj h
      have hs : s' = r.state := (congrArg Prod.fst h2).symm
      rw [hs]
      exact put_inv hI hp
  | takeEnter d1 d2 ru =>
    simp only [step] at h
    have h2 := Option.some.inj h
    have hs : s' = (s.takeEnter d1 d2 ru).state := (congrArg Prod.fst h2).symm
    rw [hs]
    exact takeEnter_inv d1 d2 ru hI
  | tryTake =>
    simp only [step] at h
    have h2 := Option.some.inj h
    have hs : s' = (s.TryTake).2 := (congrArg Prod.fst h2).symm
    rw [hs]
    exact tryTake_inv hI
  | close =>
    simp only [step] at h
    have h2 := Option.some.inj h
    have hs : s' = s.Close := (congrArg Prod.fst h2).symm
    rw [hs]
    exact close_inv hI
  | takeReceive c =>
    simp only [step] at h
    by_cases hc : c ∈ s.outstanding
    · rw [if_pos hc] at h
      rcases hcell : s.cellAt c with - | w | -
      · rw [hcell] at h
        simp only [Cell.tryRecv] at h
        have h2 := Option.some.inj h
        have hs : s' = s := (congrArg Prod.fst h2).symm
        rw [hs]
        exact hI
      · rw [hcell] at h
        simp only [Cell.tryRecv] at h
        injection h with h2
        injection h2 with ha hb
        subst ha
        exact receive_release_inv hI hc Cell.empty (Or.inl rfl)
          (by rw [hcell]; nofun)
      · rw [hcell] at h
        simp only [Cell.tryRecv] at h
        injection h with h2
        injection h2 with ha hb
        subst ha
        exact receive_release_inv hI hc Cell.closed (Or.inr ⟨rfl, hcell⟩)
          (by rw [hcell]; nofun)
    · rw [if_neg hc] at h
      have h2 := Option.some.inj h
      have hs : s' = s := (congrArg Prod.fst h2).symm
      rw [hs]
      exact hI
  | takeCancel c =>
    simp only [step] at h
    by_cases hc : c ∈ s.outstanding
    · rw [if_pos hc] at h
      rcases hcell : s.cellAt c with - | w | -
      · rw [handleCancel_of_empty hcell] at h
        injection h with h2
        injection h2 with ha hb
        subst ha
        exact cancel_release_inv hI hc s.cells (Or.inl ⟨rfl, hcell⟩)
      · rw [handleCancel_of_filled hcell] at h
        injection h with h2
        injection h2 with ha hb
        subst ha
        exact cancel_release_inv hI hc (s.cells.set c Cell.empty)
          (Or.inr (Or.inl rfl))
      · rw [handleCancel_of_closed hcell] at h
        injection h with h2
        injection h2 with ha hb
        subst ha
        exact cancel_release_inv hI hc (s.cells.set c Cell.closed)
          (Or.inr (Or.inr ⟨rfl, hcell⟩))
    · rw [if_neg hc] at h
      have h2 := Option.some.inj h
      have hs : s' = s := (congrArg Prod.fst h2).symm
      rw [hs]
      exact hI

/-- Under the invariant, no event panics: the double-write assertion in Put
is unreachable. -/
theorem step_total {Item : Type} [Inhabited Item] {s : WList Item}
    (hI : PoolInv s) (e : Ev Item) : ∃ s' o, step s e = some (s', o) := by
  cases e with
  | put v =>
    obtain ⟨r, hr⟩ := put_total v hI
    exact ⟨r.state, { handoff := r.handoff.map (fun c => (c, v)) },
      by simp [step, hr]⟩
  | takeEnter d1 d2 ru => exact ⟨_, _, rfl⟩
  | tryTake => exact ⟨_, _, rfl⟩
  | close => exact ⟨_, _, rfl⟩
  | takeReceive c =>
    simp only [step]
    by_cases hc : c ∈ s.outstanding
    · rw [if_pos hc]
      rcases htr : (s.cellAt c).tryRecv with - | ⟨v, ok, cell'⟩ <;>
        exact ⟨_, _, rfl⟩
    · rw [if_neg hc]
      exact ⟨_, _, rfl⟩
  | takeCancel c =>
    simp only [step]
    by_cases hc : c ∈ s.outstanding
    · rw [if_pos hc]
      exact ⟨_, _, rfl⟩
    · rw [if_neg hc]
      exact ⟨_, _, rfl⟩

theorem put_frame {Item : Type} {s : WList Item} {v : Item} {r : PutResult Item}
    (hI : PoolInv s) (h : s.Put v = some r) :
    r.state.MaxItems = s.MaxItems ∧ r.state.MaxWaiters = s.MaxWaiters ∧
    r.state.loads = s.loads := by
  rcases put_shape v hI with ⟨-, hp⟩ | ⟨c, rest, -, -, hp⟩ | ⟨-, -, hp⟩ <;>
    rw [Option.some.inj (h.symm.trans hp)] <;> exact ⟨rfl, rfl, rfl⟩

/-- The Take entry section: configuration is never written; `loads` grows by
one exactly when a construction goroutine is spawned; a spawn happens only on
the registration path and only within the construction budget. -/
theorem takeEnter_frame {Item : Type} (s : WList Item) (d1 d2 ru : Bool) :
    (s.takeEnter d1 d2 ru).state.MaxItems = s.MaxItems ∧
    (s.takeEnter d1 d2 ru).state.MaxWaiters = s.MaxWaiters ∧
    (s.takeEnter d1 d2 ru).state.loads =
      s.loads + (if (s.takeEnter d1 d2 ru).spawned then 1 else 0) ∧
    ((s.takeEnter d1 d2 ru).spawned = true →
      (∃ c, (s.takeEnter d1 d2 ru).outcome = .registered c) ∧
      (s.MaxItems = 0 ∨ s.loads < s.MaxItems)) := by
  rcases List.eq_nil_or_concat s.ready.a with hr | ⟨rest, v, hr0⟩
  case inr =>
    have hr : s.ready.a = rest ++ [v] := by simpa using hr0
    rw [takeEnter_of_ready d1 d2 ru hr]
    simp
  cases hcl : s.closed with
  | true =>
    rw [takeEnter_of_closed d1 d2 ru hr hcl]
    simp
  | false =>
    cases d1 with
    | true =>
      rw [takeEnter_of_ctxDone d2 ru hr hcl]
      simp
    | false =>
      by_cases hcap : 0 < s.MaxWaiters ∧ s.MaxWaiters ≤ s.waiters.Len
      · rw [takeEnter_of_maxWaiters d2 ru hr hcl hcap]
        simp
      · cases ru with
        | true =>
          rcases hpool : s.chanPool with - | ⟨c, prest⟩
          · rw [takeEnter_register_fresh hr hcl hcap (Or.inr hpool)]
            by_cases hsp : d2 = false ∧ (s.MaxItems = 0 ∨ s.loads < s.MaxItems)
            · rw [if_pos hsp]
              exact ⟨rfl, rfl, rfl, fun _ => ⟨⟨_, rfl⟩, hsp.2⟩⟩
            · rw [if_neg hsp]
              exact ⟨rfl, rfl, rfl, nofun⟩
          · rw [takeEnter_register_reuse hr hcl hcap hpool]
            by_cases hsp : d2 = false ∧ (s.MaxItems = 0 ∨ s.loads < s.MaxItems)
            · rw [if_pos hsp]
              exact ⟨rfl, rfl, rfl, fun _ => ⟨⟨_, rfl⟩, hsp.2⟩⟩
            · rw [if_neg hsp]
              exact ⟨rfl, rfl, rfl, nofun⟩
        | false =>
          rw [takeEnter_register_fresh hr hcl hcap (Or.inl rfl)]
          by_cases hsp : d2 = false ∧ (s.MaxItems = 0 ∨ s.loads < s.MaxItems)
          · rw [if_pos hsp]
            exact ⟨rfl, rfl, rfl, fun _ => ⟨⟨_, rfl⟩, hsp.2⟩⟩
          · rw [if_neg hsp]
            exact ⟨rfl, rfl, rfl, nofun⟩

/-- One step never writes the configuration and accounts `loads` as exactly
the number of construction spawns. -/
theorem step_frame {Item : Type} [Inhabited Item] {s s' : WList Item}
    {e : Ev Item} {o : Out Item} (hI : PoolInv s)
    (h : step s e = some (s', o)) :
    s'.MaxItems = s.MaxItems ∧ s'.MaxWaiters = s.MaxWaiters ∧
    s'.loads = s.loads + (if o.spawned then 1 else 0) := by
  cases e with
  | put v =>
    simp only [step] at h
    rcases hp : s.Put v with - | r
    · rw [hp] at h
      cases h
    · rw [hp] at h
      injection h with h2
      injection h2 with ha hb
      subst ha
      subst hb
      obtain ⟨h1, h2, h3⟩ := put_frame hI hp
      exact ⟨h1, h2, by simpa using h3⟩
  | takeEnter d1 d2 ru =>
    simp only [step] at h
    injection h with h2
    injection h2 with ha hb
    subst ha
    subst hb
    obtain ⟨h1, h2, h3, -⟩ := takeEnter_frame s d1 d2 ru
    exact ⟨h1, h2, by simpa using h3⟩
  | tryTake =>
    simp only [step] at h
    injection h with h2
    injection h2 with ha hb
    subst ha
    subst hb
    rw [tryTake_eq]
    exact ⟨rfl, rfl, by simp⟩
  | close =>
    simp only [step] at h
    injection h with h2
    injection h2 with ha hb
    subst ha
    subst hb
    cases hcl : s.closed with
    | true => rw [close_of_closed hcl]; exact ⟨rfl, rfl, by simp⟩
    | false => rw [close_of_open hcl]; exact ⟨rfl, rfl, by simp⟩
  | takeReceive c =>
    simp only [step] at h
    by_cases hc : c ∈ s.outstanding
    · rw [if_pos hc] at h
      rcases htr : (s.cellAt c).tryRecv with - | ⟨v, ok, cell'⟩ <;> rw [htr] at h <;>
        [skip; skip] <;> injection h with h2
      · injection h2 with ha hb
        subst ha
        subst hb
        exact ⟨rfl, rfl, by simp⟩
      · injection h2 with ha hb
        subst ha
        subst hb
        exact ⟨rfl, rfl, by simp⟩
    · rw [if_neg hc] at h
      injection h with h2
      injection h2 with ha hb
      subst ha
      subst hb
      exact ⟨rfl, rfl, by simp⟩
  | takeCancel c =>
    simp only [step] at h
    by_cases hc : c ∈ s.outstanding
    · rw [if_pos hc] at h
      rcases hcell : s.cellAt c with - | w | - <;>
        [rw [handleCancel_of_empty hcell] at h;
         rw [handleCancel_of_filled hcell] at h;
         rw [handleCancel_of_closed hcell] at h] <;>
        injection h with h2 <;> injection h2 with ha hb <;> subst ha <;> subst hb <;>
        exact ⟨rfl, rfl, by simp⟩
    · rw [if_neg hc] at h
      injection h with h2
      injection h2 with ha hb
      subst ha
      subst hb
      exact ⟨rfl, rfl, by simp⟩

/-- Number of construction-goroutine spawns recorded in a list of outputs. -/
def spawnCount {Item : Type} (os : List (Out Item)) : Nat :=
  os.countP (fun o => o.spawned)

theorem run_inv {Item : Type} [Inhabited Item] {s s' : WList Item}
    {tr : List (Ev Item)} {os : List (Out Item)} (hI : PoolInv s)
    (h : run s tr = some (s', os)) : PoolInv s' := by
  induction tr generalizing s os with
  | nil =>
    simp only [run] at h
    injection h with h2
    injection h2 with ha hb
    subst ha
    exact hI
  | cons e es ih =>
    simp only [run] at h
    rcases hstep : step s e with - | ⟨s1, o⟩
    · rw [hstep] at h
      cases h
    · rw [hstep] at h
      have h' : (match run s1 es with
          | none => none
          | some (s'', os2) => some (s'', o :: os2)) = some (s', os) := h
      rcases hrun : run s1 es with - | ⟨s2, os2⟩
      · rw [hrun] at h'
        cases h'
      · rw [hrun] at h'
        injection h' with h2
        injection h2 with ha hb
        subst ha
        exact ih (step_inv hI hstep) hrun

theorem run_total {Item : Type} [Inhabited Item] {s : WList Item}
    (hI : PoolInv s) (tr : List (Ev Item)) :
    ∃ s' os, run s tr = some (s', os) := by
  induction tr generalizing s with
  | nil => exact ⟨s, [], rfl⟩
  | cons e es ih =>
    obtain ⟨s1, o, hstep⟩ := step_total hI e
    obtain ⟨s2, os2, hrun⟩ := ih (step_inv hI hstep)
    exact ⟨s2, o :: os2, by simp [run, hstep, hrun]⟩

theorem run_frame {Item : Type} [Inhabited Item] {s s' : WList Item}
    {tr : List (Ev Item)} {os : List (Out Item)} (hI : PoolInv s)
    (h : run s tr = some (s', os)) :
    s'.MaxItems = s.MaxItems ∧ s'.MaxWaiters = s.MaxWaiters ∧
    s'.loads = s.loads + spawnCount os := by
  induction tr generalizing s os with
  | nil =>
    simp only [run] at h
    injection h with h2
    injection h2 with ha hb
    subst ha
    subst hb
    exact ⟨rfl, rfl, by simp [spawnCount]⟩
  | cons e es ih =>
    simp only [run] at h
    rcases hstep : step s e with - | ⟨s1, o⟩
    · rw [hstep] at h
      cases h
    · rw [hstep] at h
      have h' : (match run s1 es with
          | none => none
          | some (s'', os2) => some (s'', o :: os2)) = some (s', os) := h
      rcases hrun : run s1 es with - | ⟨s2, os2⟩
      · rw [hrun] at h'
        cases h'
      · rw [hrun] at h'
        injection h' with h2
        injection h2 with ha hb
        subst ha
        subst hb
        obtain ⟨f1, f2, f3⟩ := step_frame hI hstep
        obtain ⟨g1, g2, g3⟩ := ih (step_inv hI hstep) hrun
        refine ⟨g1.trans f1, g2.trans f2, ?_⟩
        rw [g3, f3]
        show s.loads + (if o.spawned then 1 else 0) + spawnCount os2 =
          s.loads + spawnCount (o :: os2)
        have : spawnCount (o :: os2) =
            (if o.spawned then 1 else 0) + spawnCount os2 := by
          cases hos : o.spawned <;>
            simp [spawnCount, List.countP_cons, hos, Nat.add_comm]
        omega

/-- Every reachable state satisfies the pool invariant and carries the
configured limits. -/
theorem reachable_inv {Item : Type} [Inhabited Item] {M W : Nat}
    {s : WList Item} (h : Reachable M W s) :
    PoolInv s ∧ s.MaxItems = M ∧ s.MaxWaiters = W := by
  obtain ⟨tr, os, hrun⟩ := h
  have h0 := inv_init Item M W
  obtain ⟨f1, f2, -⟩ := run_frame h0 hrun
  exact ⟨run_inv h0 hrun, f1, f2⟩

/-! ### FIFO service order -/

/-- Traces restricted to waiter registrations (`takeEnter`) and handoffs
(`put`), as in the spec's ordering guarantee. -/
def Ev.isRegOrPut {Item : Type} : Ev Item → Bool
  | .put _ => true
  | .takeEnter _ _ _ => true
  | _ => false

/-- Cells registered at the waiter-queue tail, in trace order. -/
def regsOf {Item : Type} (os : List (Out Item)) : List Nat :=
  os.filterMap (fun o => o.reg)

/-- Successful handoffs `(cell, value)`, in trace order. -/
def handoffsOf {Item : Type} (os : List (Out Item)) : List (Nat × Item) :=
  os.filterMap (fun o => o.handoff)

/-- Along a registration/handoff step, a value already delivered into the
cell of a blocked waiter stays there untouched. -/
theorem step_persist {Item : Type} [Inhabited Item] {s s1 : WList Item}
    {e : Ev Item} {o : Out Item} {c : Nat} {v : Item}
    (hI : PoolInv s) (halph : e.isRegOrPut = true) (h : step s e = some (s1, o))
    (hcell : s.cellAt c = Cell.filled v) (hout : c ∈ s.outstanding)
    (hnw : c ∉ s.waiters.a) :
    s1.cellAt c = Cell.filled v ∧ c ∈ s1.outstanding ∧ c ∉ s1.waiters.a := by
  have hclt : c < s.cells.length := hI.outLt c hout
  cases e with
  | put w =>
    simp only [step] at h
    rcases hp : s.Put w with - | r
    · rw [hp] at h
      cases h
    · rw [hp] at h
      injection h with h2
      injection h2 with ha hb
      subst ha
      rcases put_shape w hI with ⟨-, hq⟩ | ⟨c0, rest, -, hw, hq⟩ | ⟨-, -, hq⟩ <;>
        rw [Option.some.inj (hp.symm.trans hq)]
      · exact ⟨hcell, hout, hnw⟩
      · have hc0 : c0 ≠ c := fun hh => hnw (hh ▸ hw ▸ List.mem_cons_self c0 rest)
        refine ⟨?_, hout, ?_⟩
        · show (s.cells.set c0 (Cell.filled w)).getD c Cell.empty = Cell.filled v
          rw [list_getD_set_ne _ _ _ _ _ hc0]
          exact hcell
        · intro hmem
          exact hnw (hw ▸ List.mem_cons_of_mem c0 hmem)
      · exact ⟨hcell, hout, hnw⟩
  | takeEnter d1 d2 ru =>
    simp only [step] at h
    injection h with h2
    injection h2 with ha hb
    subst ha
    rcases List.eq_nil_or_concat s.ready.a with hr | ⟨rrest, rv, hr0⟩
    case takeEnter.inr.intro.intro =>
      have hr : s.ready.a = rrest ++ [rv] := by simpa using hr0
      rw [takeEnter_of_ready d1 d2 ru hr]
      exact ⟨hcell, hout, hnw⟩
    cases hcl : s.closed with
    | true =>
      rw [takeEnter_of_closed d1 d2 ru hr hcl]
      exact ⟨hcell, hout, hnw⟩
    | false =>
      cases d1 with
      | true =>
        rw [takeEnter_of_ctxDone d2 ru hr hcl]
        exact ⟨hcell, hout, hnw⟩
      | false =>
        by_cases hcap : 0 < s.MaxWaiters ∧ s.MaxWaiters ≤ s.waiters.Len
        · rw [takeEnter_of_maxWaiters d2 ru hr hcl hcap]
          exact ⟨hcell, hout, hnw⟩
        · have hfresh : ∀ L : Nat,
              (s.cells ++ [Cell.empty]).getD c Cell.empty = Cell.filled v ∧
              c ∈ L :: s.outstanding ∧
              c ∉ s.waiters.a ++ [s.cells.length] := by
            intro L
            refine ⟨?_, List.mem_cons_of_mem _ hout, ?_⟩
            · rw [list_getD_append_lt _ _ _ _ hclt]
              exact hcell
            · intro hmem
              rcases List.mem_append.mp hmem with hh | hh
              · exact hnw hh
              · simp only [List.mem_singleton] at hh
                exact absurd rfl (Nat.ne_of_lt (hh ▸ hclt))
          cases ru with
          | true =>
            rcases hpool : s.chanPool with - | ⟨c0, prest⟩
            · rw [takeEnter_register_fresh hr hcl hcap (Or.inr hpool)]
              by_cases hsp : d2 = false ∧ (s.MaxItems = 0 ∨ s.loads < s.MaxItems)
              · rw [if_pos hsp]
                exact hfresh _
              · rw [if_neg hsp]
                exact hfresh _
            · rw [takeEnter_register_reuse hr hcl hcap hpool]
              have hc0 : c0 ≠ c := by
                intro hh
                exact hI.outPoolDisj c hout
                  (hh ▸ hpool ▸ List.mem_cons_self c0 prest)
              have hreuse : s.cellAt c = Cell.filled v ∧
                  c ∈ c0 :: s.outstanding ∧ c ∉ s.waiters.a ++ [c0] := by
                refine ⟨hcell, List.mem_cons_of_mem _ hout, ?_⟩
                intro hmem
                rcases List.mem_append.mp hmem with hh | hh
                · exact hnw hh
                · simp only [List.mem_singleton] at hh
                  exact hc0 hh.symm
              by_cases hsp : d2 = false ∧ (s.MaxItems = 0 ∨ s.loads < s.MaxItems)
              · rw [if_pos hsp]
                exact hreuse
              · rw [if_neg hsp]
                exact hreuse
          | false =>
            rw [takeEnter_register_fresh hr hcl hcap (Or.inl rfl)]
            by_cases hsp : d2 = false ∧ (s.MaxItems = 0 ∨ s.loads < s.MaxItems)
            · rw [if_pos hsp]
              exact hfresh _
            · rw [if_neg hsp]
              exact hfresh _
  | tryTake => cases halph
  | close => cases halph
  | takeReceive c2 => cases halph
  | takeCancel c2 => cases halph

/-- A delivered value persists across a whole registration/handoff trace. -/
theorem filled_persists {Item : Type} [Inhabited Item] {s s' : WList Item}
    {tr : List (Ev Item)} {os : List (Out Item)} {c : Nat} {v : Item}
    (hI : PoolInv s) (halph : ∀ e ∈ tr, e.isRegOrPut = true)
    (h : run s tr = some (s', os))
    (hcell : s.cellAt c = Cell.filled v) (hout : c ∈ s.outstanding)
    (hnw : c ∉ s.waiters.a) :
    s'.cellAt c = Cell.filled v := by
  induction tr generalizing s os with
  | nil =>
    simp only [run] at h
    injection h with h2
    injection h2 with ha hb
    subst ha
    exact hcell
  | cons e es ih =>
    simp only [run] at h
    rcases hstep : step s e with - | ⟨s1, o⟩
    · rw [hstep] at h
      cases h
    · rw [hstep] at h
      have h' : (match run s1 es with
          | none => none
          | some (s'', os2) => some (s'', o :: os2)) = some (s', os) := h
      rcases hrun : run s1 es with - | ⟨s2, os2⟩
      · rw [hrun] at h'
        cases h'
      · rw [hrun] at h'
        injection h' with h2
        injection h2 with ha hb
        subst ha
        obtain ⟨p1, p2, p3⟩ :=
          step_persist hI (halph e (List.mem_cons_self e es)) hstep hcell hout hnw
        exact ih (step_inv hI hstep)
          (fun e2 he2 => halph e2 (List.mem_cons_of_mem e he2)) hrun p1 p2 p3

/-- FIFO service along any registration/handoff trace: the cells served by
the successive handoffs are exactly the initially queued waiters followed by
the newly registered ones, in order, and each served cell holds the value of
its own handoff at the end of the trace. -/
theorem run_fifo {Item : Type} [Inhabited Item] {s s' : WList Item}
    {tr : List (Ev Item)} {os : List (Out Item)} (hI : PoolInv s)
    (halph : ∀ e ∈ tr, e.isRegOrPut = true) (h : run s tr = some (s', os)) :
    (handoffsOf os).map Prod.fst =
      (s.waiters.a ++ regsOf os).take (handoffsOf os).length ∧
    ∀ p ∈ handoffsOf os, s'.cellAt p.1 = Cell.filled p.2 := by
  induction tr generalizing s os with
  | nil =>
    simp only [run] at h
    injection h with h2
    injection h2 with ha hb
    subst ha
    subst hb
    exact ⟨by simp [handoffsOf], by simp [handoffsOf]⟩
  | cons e es ih =>
    simp only [run] at h
    rcases hstep : step s e with - | ⟨s1, o⟩
    · rw [hstep] at h
      cases h
    rw [hstep] at h
    have h' : (match run s1 es with
        | none => none
        | some (s'', os2) => some (s'', o :: os2)) = some (s', os) := h
    rcases hrun : run s1 es with - | ⟨s2, os2⟩
    · rw [hrun] at h'
      cases h'
    rw [hrun] at h'
    injection h' with h2
    injection h2 with ha hb
    subst ha
    subst hb
    have hI1 : PoolInv s1 := step_inv hI hstep
    have halph1 : ∀ e2 ∈ es, e2.isRegOrPut = true :=
      fun e2 he2 => halph e2 (List.mem_cons_of_mem e he2)
    obtain ⟨ihA, ihB⟩ := ih hI1 halph1 hrun
    cases e with
    | put w =>
      simp only [step] at hstep
      rcases hp : s.Put w with - | r
      · rw [hp] at hstep
        cases hstep
      rw [hp] at hstep
      injection hstep with h3
      injection h3 with ha2 hb2
      subst ha2
      subst hb2
      rcases put_shape w hI with ⟨-, hq⟩ | ⟨c0, rest, -, hw, hq⟩ | ⟨-, -, hq⟩ <;>
        obtain rfl := Option.some.inj (hp.symm.trans hq)
      · constructor
        · simpa [handoffsOf, regsOf, List.filterMap_cons] using ihA
        · simpa [handoffsOf, List.filterMap_cons] using ihB
      · have hc0mem : c0 ∈ s.waiters.a := hw ▸ List.mem_cons_self c0 rest
        have hc0out : c0 ∈ s.outstanding := hI.waitSub c0 hc0mem
        have hc0lt : c0 < s.cells.length := hI.outLt c0 hc0out
        have hc0rest : c0 ∉ rest := (List.nodup_cons.mp (hw ▸ hI.waitNodup)).1
        constructor
        · show ((c0, w) :: handoffsOf os2).map Prod.fst =
            (s.waiters.a ++ regsOf ({ handoff := some (c0, w) } :: os2)).take
              ((c0, w) :: handoffsOf os2).length
          rw [hw]
          simp only [List.map_cons, List.length_cons, List.cons_append,
            List.take_succ_cons, regsOf, List.filterMap_cons]
          refine congrArg (fun L => c0 :: L) ?_
          simpa [regsOf, handoffsOf] using ihA
        · intro p hp2
          rcases List.mem_cons.mp
            (show p ∈ (c0, w) :: handoffsOf os2 from hp2) with hh | hh
          · subst hh
            refine filled_persists hI1 halph1 hrun ?_ hc0out hc0rest
            show ((s.cells.set c0 (Cell.filled w)).getD c0 Cell.empty) =
              Cell.filled w
            rw [list_getD_set_self _ _ _ _ hc0lt]
          · exact ihB p hh
      · constructor
        · simpa [handoffsOf, regsOf, List.filterMap_cons] using ihA
        · simpa [handoffsOf, List.filterMap_cons] using ihB
    | takeEnter d1 d2 ru =>
      simp only [step] at hstep
      rcases List.eq_nil_or_concat s.ready.a with hr | ⟨rrest, rv, hr0⟩
      case inr.intro.intro =>
        have hr : s.ready.a = rrest ++ [rv] := by simpa using hr0
        rw [takeEnter_of_ready d1 d2 ru hr] at hstep
        injection hstep with h3
        injection h3 with ha2 hb2
        subst ha2
        subst hb2
        constructor
        · simpa [handoffsOf, regsOf, List.filterMap_cons] using ihA
        · simpa [handoffsOf, List.filterMap_cons] using ihB
      cases hcl : s.closed with
      | true =>
        rw [takeEnter_of_closed d1 d2 ru hr hcl] at hstep
        injection hstep with h3
        injection h3 with ha2 hb2
        subst ha2
        subst hb2
        constructor
        · simpa [handoffsOf, regsOf, List.filterMap_cons] using ihA
        · simpa [handoffsOf, List.filterMap_cons] using ihB
      | false =>
        cases d1 with
        | true =>
          rw [takeEnter_of_ctxDone d2 ru hr hcl] at hstep
          injection hstep with h3
          injection h3 with ha2 hb2
          subst ha2
          subst hb2
          constructor
          · simpa [handoffsOf, regsOf, List.filterMap_cons] using ihA
          · simpa [handoffsOf, List.filterMap_cons] using ihB
        | false =>
          by_cases hcap : 0 < s.MaxWaiters ∧ s.MaxWaiters ≤ s.waiters.Len
          · rw [takeEnter_of_maxWaiters d2 ru hr hcl hcap] at hstep
            injection hstep with h3
            injection h3 with ha2 hb2
            subst ha2
            subst hb2
            constructor
            · simpa [handoffsOf, regsOf, List.filterMap_cons] using ihA
            · simpa [handoffsOf, List.filterMap_cons] using ihB
          · have hfinish : ∀ c2 : Nat,
                (handoffsOf os2).map Prod.fst =
                  ((s.waiters.a ++ [c2]) ++ regsOf os2).take
                    (handoffsOf os2).length →
                (handoffsOf os2).map Prod.fst =
                  (s.waiters.a ++ c2 :: regsOf os2).take
                    (handoffsOf os2).length := by
              intro c2 hA
              rw [List.append_assoc] at hA
              simpa using hA
            cases ru with
            | true =>
              rcases hpool : s.chanPool with - | ⟨c0, prest⟩
              · rw [takeEnter_register_fresh hr hcl hcap (Or.inr hpool)] at hstep
                by_cases hsp : d2 = false ∧ (s.MaxItems = 0 ∨ s.loads < s.MaxItems)
                · rw [if_pos hsp] at hstep
                  injection hstep with h3
                  injection h3 with ha2 hb2
                  subst ha2
                  subst hb2
                  refine ⟨?_, by simpa [handoffsOf, List.filterMap_cons] using ihB⟩
                  simp only [handoffsOf, regsOf, List.filterMap_cons]
                  exact hfinish _ (by simpa [handoffsOf, regsOf] using ihA)
                · rw [if_neg hsp] at hstep
                  injection hstep with h3
                  injection h3 with ha2 hb2
                  subst ha2
                  subst hb2
                  refine ⟨?_, by simpa [handoffsOf, List.filterMap_cons] using ihB⟩
                  simp only [handoffsOf, regsOf, List.filterMap_cons]
                  exact hfinish _ (by simpa [handoffsOf, regsOf] using ihA)
              · rw [takeEnter_register_reuse hr hcl hcap hpool] at hstep
                by_cases hsp : d2 = false ∧ (s.MaxItems = 0 ∨ s.loads < s.MaxItems)
                · rw [if_pos hsp] at hstep
                  injection hstep with h3
                  injection h3 with ha2 hb2
                  subst ha2
                  subst hb2
                  refine ⟨?_, by simpa [handoffsOf, List.filterMap_cons] using ihB⟩
                  simp only [handoffsOf, regsOf, List.filterMap_cons]
                  exact hfinish _ (by simpa [handoffsOf, regsOf] using ihA)
                · rw [if_neg hsp] at hstep
                  injection hstep with h3
                  injection h3 with ha2 hb2
                  subst ha2
                  subst hb2
                  refine ⟨?_, by simpa [handoffsOf, List.filterMap_cons] using ihB⟩
                  simp only [handoffsOf, regsOf, List.filterMap_cons]
                  exact hfinish _ (by simpa [handoffsOf, regsOf] using ihA)
            | false =>
              rw [takeEnter_register_fresh hr hcl hcap (Or.inl rfl)] at hstep
              by_cases hsp : d2 = false ∧ (s.MaxItems = 0 ∨ s.loads < s.MaxItems)
              · rw [if_pos hsp] at hstep
                injection hstep with h3
                injection h3 with ha2 hb2
                subst ha2
                subst hb2
                refine ⟨?_, by simpa [handoffsOf, List.filterMap_cons] using ihB⟩
                simp only [handoffsOf, regsOf, List.filterMap_cons]
                exact hfinish _ (by simpa [handoffsOf, regsOf] using ihA)
              · rw [if_neg hsp] at hstep
                injection hstep with h3
                injection h3 with ha2 hb2
                subst ha2
                subst hb2
                refine ⟨?_, by simpa [handoffsOf, List.filterMap_cons] using ihB⟩
                simp only [handoffsOf, regsOf, List.filterMap_cons]
                exact hfinish _ (by simpa [handoffsOf, regsOf] using ihA)
    | tryTake => cases halph _ (List.mem_cons_self _ _)
    | close => cases halph _ (List.mem_cons_self _ _)
    | takeReceive c2 => cases halph _ (List.mem_cons_self _ _)
    | takeCancel c2 => cases halph _ (List.mem_cons_self _ _)

/-- The closed flag, once set, survives every step. -/
theorem step_closed_mono {Item : Type} [Inhabited Item] {s s' : WList Item}
    {e : Ev Item} {o : Out Item} (hcl : s.closed = true)
    (h : step s e = some (s', o)) : s'.closed = true := by
  cases e with
  | put v =>
    simp only [step] at h
    rcases hp : s.Put v with - | r
    · rw [hp] at h
      cases h
    · rw [hp] at h
      injection h with h2
      injection h2 with ha hb
      subst ha
      have hr := Option.some.inj (hp.symm.trans (put_of_closed v hcl))
      rw [hr]
      exact hcl
  | takeEnter d1 d2 ru =>
    simp only [step] at h
    injection h with h2
    injection h2 with ha hb
    subst ha
    rcases List.eq_nil_or_concat s.ready.a with hr | ⟨rrest, rv, hr0⟩
    · rw [takeEnter_of_closed d1 d2 ru hr hcl]
      exact hcl
    · have hr : s.ready.a = rrest ++ [rv] := by simpa using hr0
      rw [takeEnter_of_ready d1 d2 ru hr]
      exact hcl
  | tryTake =>
    simp only [step] at h
    injection h with h2
    injection h2 with ha hb
    subst ha
    rw [tryTake_eq]
    exact hcl
  | close =>
    simp only [step] at h
    injection h with h2
    injection h2 with ha hb
    subst ha
    rw [close_of_closed hcl]
    exact hcl
  | takeReceive c =>
    simp only [step] at h
    by_cases hc : c ∈ s.outstanding
    · rw [if_pos hc] at h
      rcases hcell : s.cellAt c with - | w | - <;> rw [hcell] at h <;>
        simp only [Cell.tryRecv] at h <;> injection h with h2 <;>
        injection h2 with ha hb <;> subst ha <;> exact hcl
    · rw [if_neg hc] at h
      injection h with h2
      injection h2 with ha hb
      subst ha
      exact hcl
  | takeCancel c =>
    simp only [step] at h
    by_cases hc : c ∈ s.outstanding
    · rw [if_pos hc] at h
      rcases hcell : s.cellAt c with - | w | - <;>
        [rw [handleCancel_of_empty hcell] at h;
         rw [handleCancel_of_filled hcell] at h;
         rw [handleCancel_of_closed hcell] at h] <;>
        injection h with h2 <;> injection h2 with ha hb <;> subst ha <;> exact hcl
    · rw [if_neg hc] at h
      injection h with h2
      injection h2 with ha hb
      subst ha
      exact hcl

/-! ### Claim theorems -/

/-- C3: whenever the ready stack is non-empty, Take's entry pops its top and
returns it with nil error, registering nothing, spawning nothing, and never
consulting the closed flag or the context (both are arbitrary here, including
an already-closed pool and an already-cancelled context). -/
theorem take_drains_ready_unconditionally {Item : Type} [Inhabited Item]
    (s : WList Item) (d1 d2 ru : Bool) (v : Item) (rest : List Item)
    (h : s.ready.a = rest ++ [v]) :
    step s (Ev.takeEnter d1 d2 ru) =
      some ({ s with ready := ⟨rest⟩ },
            { reg := none, handoff := none, spawned := false,
              res := some (v, none) }) := by
  simp [step, takeEnter_of_ready d1 d2 ru h]

theorem take_drains_ready_unconditionally_witness :
    step ({ MaxItems := 1, MaxWaiters := 1, ready := ⟨[7, 42]⟩, loads := 1,
            waiters := ⟨[]⟩, cells := [], chanPool := [], outstanding := [],
            closed := true } : WList Nat) (Ev.takeEnter true true false) =
      some ({ MaxItems := 1, MaxWaiters := 1, ready := ⟨[7]⟩, loads := 1,
              waiters := ⟨[]⟩, cells := [], chanPool := [], outstanding := [],
              closed := true },
            { reg := none, handoff := none, spawned := false,
              res := some (42, none) }) :=
  take_drains_ready_unconditionally _ true true false 42 [7] rfl

/-- C9: TryTake is exactly a pop of the ready stack: it returns the top item
(or `none` on an empty stack, regardless of the closed flag) and leaves the
waiter queue, the loads counter, the closed flag, the cell heap and the
free-list untouched, never invoking construction. -/
theorem tryTake_pops_ready_only {Item : Type} (s : WList Item) :
    s.TryTake = (s.ready.a.getLast?, { s with ready := ⟨s.ready.a.dropLast⟩ }) ∧
    (s.TryTake).2.waiters = s.waiters ∧
    (s.TryTake).2.loads = s.loads ∧
    (s.TryTake).2.closed = s.closed ∧
    (s.TryTake).2.cells = s.cells ∧
    (s.TryTake).2.chanPool = s.chanPool ∧
    (s.ready.a = [] → (s.TryTake).1 = none ∧ (s.TryTake).2 = s) := by
  have h := tryTake_eq s
  refine ⟨h, by rw [h], by rw [h], by rw [h], by rw [h], by rw [h], ?_⟩
  intro hnil
  rw [h, hnil]
  constructor
  · simp
  · show { s with ready := ⟨([] : List Item).dropLast⟩ } = s
    rw [show (⟨([] : List Item).dropLast⟩ : queue.Lifo Item) = s.ready from
      (lifo_eq_mk hnil).symm]

theorem tryTake_pops_ready_only_witness :
    (({ MaxItems := 0, MaxWaiters := 0, ready := ⟨([] : List Nat)⟩, loads := 0,
        waiters := ⟨[5]⟩, cells := [Cell.empty], chanPool := [],
        outstanding := [5], closed := true } : WList Nat).TryTake =
      (([] : List Nat).getLast?,
        { MaxItems := 0, MaxWaiters := 0, ready := ⟨([] : List Nat).dropLast⟩,
          loads := 0, waiters := ⟨[5]⟩, cells := [Cell.empty], chanPool := [],
          outstanding := [5], closed := true })) :=
  (tryTake_pops_ready_only _).1

/-- C10: on an open pool with no waiters, Put pushes onto the ready stack and
an immediate TryTake returns exactly the value just put (LIFO round-trip). -/
theorem put_tryTake_lifo_roundtrip {Item : Type} (s : WList Item) (v : Item)
    (hcl : s.closed = false) (hw : s.waiters.a = []) :
    ∃ s1 : WList Item, s.Put v = some ⟨true, s1, none⟩ ∧
      (s1.TryTake).1 = some v := by
  refine ⟨_, put_of_no_waiter v hcl hw, ?_⟩
  rw [tryTake_eq]
  show (s.ready.a ++ [v]).getLast? = some v
  simp [List.getLast?_concat]

theorem put_tryTake_lifo_roundtrip_witness :
    ∃ s1 : WList Nat,
      ({ MaxItems := 0, MaxWaiters := 0, ready := ⟨[9]⟩, loads := 0,
         waiters := ⟨[]⟩, cells := [], chanPool := [], outstanding := [],
         closed := false } : WList Nat).Put 42 = some ⟨true, s1, none⟩ ∧
      (s1.TryTake).1 = some 42 :=
  put_tryTake_lifo_roundtrip _ 42 rfl rfl

/-- A small reachable example state: one registered waiter owning cell 0,
reached from the zero-configured pool by a single registering Take. -/
def wexState : WList Nat :=
  { MaxItems := 0, MaxWaiters := 0, ready := ⟨[]⟩, loads := 0,
    waiters := ⟨[0]⟩, cells := [Cell.empty], chanPool := [],
    outstanding := [0], closed := false }

/-- Like `wexState` but configured with `MaxWaiters = 1`, so its waiter queue
is at capacity. -/
def w1State : WList Nat :=
  { MaxItems := 0, MaxWaiters := 1, ready := ⟨[]⟩, loads := 0,
    waiters := ⟨[0]⟩, cells := [Cell.empty], chanPool := [],
    outstanding := [0], closed := false }

/-- C5: Put never blocks (it is a total function here) and, in every
reachable state: on a closed pool it returns false with no state change; on
an open pool with a waiter at the head of the queue it hands the value
directly to that longest-waiting cell, returns true and leaves the ready
stack untouched; only with no waiter does it push the value onto the ready
stack, returning true. -/
theorem put_contract {Item : Type} [Inhabited Item] (M W : Nat)
    (s : WList Item) (hreach : Reachable M W s) (v : Item) :
    (s.closed = true → s.Put v = some ⟨false, s, none⟩) ∧
    (∀ c rest, s.closed = false → s.waiters.a = c :: rest →
      s.Put v = some ⟨true,
        { s with waiters := ⟨rest⟩, cells := s.cells.set c (Cell.filled v) },
        some c⟩) ∧
    (s.closed = false → s.waiters.a = [] →
      s.Put v = some ⟨true, { s with ready := ⟨s.ready.a ++ [v]⟩ }, none⟩) := by
  obtain ⟨hI, -, -⟩ := reachable_inv hreach
  refine ⟨fun hcl => put_of_closed v hcl, ?_, fun hcl hw => put_of_no_waiter v hcl hw⟩
  intro c rest hcl hw
  exact put_of_waiter v hcl hw (hI.waitEmpty c (hw ▸ List.mem_cons_self c rest))

theorem put_contract_witness :
    ((wexState.closed = true → wexState.Put 42 = some ⟨false, wexState, none⟩) ∧
     (∀ c rest, wexState.closed = false → wexState.waiters.a = c :: rest →
       wexState.Put 42 = some ⟨true,
         { wexState with
           waiters := ⟨rest⟩,
           cells := wexState.cells.set c (Cell.filled 42) }, some c⟩) ∧
     (wexState.closed = false → wexState.waiters.a = [] →
       wexState.Put 42 = some ⟨true,
         { wexState with ready := ⟨wexState.ready.a ++ [42]⟩ }, none⟩)) :=
  put_contract 0 0 wexState
    ⟨[Ev.takeEnter false true false], [{ reg := some 0 }], by decide⟩ 42

/-- C7: in a reachable state with MaxWaiters = W > 0, when the ready stack is
empty, the pool is open, the context is not cancelled and the waiter queue
already holds at least W entries, Take's entry fails with the
MaxWaiters-exceeded error, registers no waiter, spawns no construction, and
leaves the entire state unchanged; moreover the waiter queue never holds more
than W entries. -/
theorem max_waiters_enforced {Item : Type} [Inhabited Item] (M W : Nat)
    (hW : 0 < W) (s : WList Item) (hreach : Reachable M W s) (d2 ru : Bool)
    (hready : s.ready.a = []) (hcl : s.closed = false)
    (hfull : W ≤ s.waiters.a.length) :
    s.takeEnter false d2 ru = ⟨.failed .maxWaiters, s, false⟩ ∧
    s.waiters.a.length ≤ W := by
  obtain ⟨hI, -, hMW⟩ := reachable_inv hreach
  have hfull2 : 0 < s.MaxWaiters ∧ s.MaxWaiters ≤ s.waiters.Len := by
    rw [hMW]
    exact ⟨hW, hfull⟩
  refine ⟨takeEnter_of_maxWaiters d2 ru hready hcl hfull2, ?_⟩
  have := hI.waitLe (by rw [hMW]; exact hW)
  rw [hMW] at this
  exact this

theorem max_waiters_enforced_witness :
    (w1State.takeEnter false false false =
      ⟨.failed .maxWaiters, w1State, false⟩ ∧
     w1State.waiters.a.length ≤ 1) :=
  max_waiters_enforced 0 1 (by decide) w1State
    ⟨[Ev.takeEnter false true false], [{ reg := some 0 }], by decide⟩
    false false rfl rfl (by decide)

/-- C8: in every reachable state every cell queued as a waiter is empty, so
the non-blocking write of a Put handoff always succeeds: Put never hits its
fatal double-write branch, and no event at all can panic. -/
theorem no_double_write_panic {Item : Type} [Inhabited Item] (M W : Nat)
    (s : WList Item) (hreach : Reachable M W s) :
    (∀ c ∈ s.waiters.a, s.cellAt c = Cell.empty) ∧
    (∀ v : Item, s.Put v ≠ none) ∧
    (∀ e : Ev Item, step s e ≠ none) := by
  obtain ⟨hI, -, -⟩ := reachable_inv hreach
  refine ⟨hI.waitEmpty, ?_, ?_⟩
  · intro v hnone
    obtain ⟨r, hr⟩ := put_total v hI
    rw [hr] at hnone
    cases hnone
  · intro e hnone
    obtain ⟨s', o, hs⟩ := step_total hI e
    rw [hs] at hnone
    cases hnone

theorem no_double_write_panic_witness :
    ((∀ c ∈ wexState.waiters.a, wexState.cellAt c = Cell.empty) ∧
     (∀ v : Nat, wexState.Put v ≠ none) ∧
     (∀ e : Ev Nat, step wexState e ≠ none)) :=
  no_double_write_panic 0 0 wexState
    ⟨[Ev.takeEnter false true false], [{ reg := some 0 }], by decide⟩

/-- C4: Close is idempotent and irreversible: it leaves the closed flag set
(and no step ever unsets it), drains the entire waiter queue closing every
queued cell, so that every blocked Take waking on its closed cell receives
the Closed error; a second Close changes nothing, and after Close a Take
entry with an empty ready stack fails with the Closed error. -/
theorem close_contract {Item : Type} [Inhabited Item] (M W : Nat)
    (s : WList Item) (hreach : Reachable M W s) :
    (s.Close).closed = true ∧
    (s.Close).Close = s.Close ∧
    (s.closed = true → s.Close = s) ∧
    (s.Close).waiters.a = [] ∧
    (∀ c ∈ s.waiters.a, (s.Close).cellAt c = Cell.closed) ∧
    (∀ (t : WList Item) (c : Nat), c ∈ t.outstanding →
      t.cellAt c = Cell.closed →
      step t (Ev.takeReceive c) =
        some ({ t with
                cells := t.cells.set c Cell.closed,
                chanPool := c :: t.chanPool,
                outstanding := t.outstanding.erase c },
              { reg := none, handoff := none, spawned := false,
                res := some (default, some Err.closed) })) ∧
    (∀ (t t' : WList Item) (e : Ev Item) (o : Out Item), t.closed = true →
      step t e = some (t', o) → t'.closed = true) ∧
    (∀ d1 d2 ru : Bool, s.closed = true → s.ready.a = [] →
      s.takeEnter d1 d2 ru = ⟨.failed .closed, s, false⟩) := by
  obtain ⟨hI, -, -⟩ := reachable_inv hreach
  have hcc : (s.Close).closed = true := by
    cases hcl : s.closed with
    | true => rw [close_of_closed hcl]; exact hcl
    | false => rw [close_of_open hcl]
  refine ⟨hcc, close_of_closed hcc, fun hcl => close_of_closed hcl, ?_, ?_, ?_, ?_, ?_⟩
  · cases hcl : s.closed with
    | true => rw [close_of_closed hcl]; exact hI.closedNoWait hcl
    | false => rw [close_of_open hcl]
  · intro c hc
    cases hcl : s.closed with
    | true =>
      rw [hI.closedNoWait hcl] at hc
      cases hc
    | false =>
      rw [close_of_open hcl]
      show (WList.closeCells s.cells s.waiters.a).getD c Cell.empty = Cell.closed
      exact closeCells_getD_mem _ _ _ hc (hI.outLt c (hI.waitSub c hc))
  · intro t c hc hcell
    simp [step, if_pos hc, hcell, Cell.tryRecv]
  · exact fun t t' e o hcl hstep => step_closed_mono hcl hstep
  · exact fun d1 d2 ru hcl hr => takeEnter_of_closed d1 d2 ru hr hcl

theorem close_contract_witness :
    ((wexState.Close).closed = true ∧
     (wexState.Close).Close = wexState.Close ∧
     (wexState.closed = true → wexState.Close = wexState) ∧
     (wexState.Close).waiters.a = [] ∧
     (∀ c ∈ wexState.waiters.a, (wexState.Close).cellAt c = Cell.closed) ∧
     (∀ (t : WList Nat) (c : Nat), c ∈ t.outstanding →
       t.cellAt c = Cell.closed →
       step t (Ev.takeReceive c) =
         some ({ t with
                 cells := t.cells.set c Cell.closed,
                 chanPool := c :: t.chanPool,
                 outstanding := t.outstanding.erase c },
               { reg := none, handoff := none, spawned := false,
                 res := some (default, some Err.closed) })) ∧
     (∀ (t t' : WList Nat) (e : Ev Nat) (o : Out Nat), t.closed = true →
       step t e = some (t', o) → t'.closed = true) ∧
     (∀ d1 d2 ru : Bool, wexState.closed = true → wexState.ready.a = [] →
       wexState.takeEnter d1 d2 ru = ⟨.failed .closed, wexState, false⟩)) :=
  close_contract 0 0 wexState
    ⟨[Ev.takeEnter false true false], [{ reg := some 0 }], by decide⟩

/-- A state reached by registering one waiter and then closing the pool: the
waiter's cell 0 is closed and still owned by the blocked Take. -/
def cexState : WList Nat :=
  { MaxItems := 0, MaxWaiters := 0, ready := ⟨[]⟩, loads := 0, waiters := ⟨[]⟩,
    cells := [Cell.closed], chanPool := [], outstanding := [0], closed := true }

/-- C6 as stated is false: it asserts that a cancelled waiting Take whose
cell never received a value gets the context's cancellation cause back; but
in the reachable state where the pool was closed while the waiter was queued
(and the select raced in favour of ctx.Done), handleCancel's non-blocking
receive on the closed cell is ready, so Take returns the zero value with nil
error instead of the cancellation cause. -/
theorem near_miss_counterexample :
    ¬(∀ (s : WList Nat) (c : Nat), Reachable 0 0 s → c ∈ s.outstanding →
        (∀ v : Nat, s.cellAt c ≠ Cell.filled v) →
        (step s (Ev.takeCancel c)).map (fun p => p.2.res) =
          some (some (0, some Err.ctxCause))) := by
  intro hclaim
  have h := hclaim cexState 0
    ⟨[Ev.takeEnter false true false, Ev.close], [{ reg := some 0 }, {}],
     by decide⟩
    (by decide)
    (by intro v hv; simp [cexState, WList.cellAt] at hv)
  exact absurd h (by decide)

/-- C6 (amended): when a waiting Take (owner of registered cell c) is
cancelled, the cell is removed from the waiter queue and re-checked: a
near-missed value is returned with nil error, never the cancellation error; a
cell closed by Close likewise yields nil error (with the zero value); only a
still-empty cell yields the context's cancellation cause.  In every outcome
the cell is out of the waiter queue and in the channel free-list. -/
theorem near_miss_amended {Item : Type} [Inhabited Item] (s : WList Item)
    (c : Nat) (hc : c ∈ s.outstanding) :
    ∃ s' o, step s (Ev.takeCancel c) = some (s', o) ∧
      (∀ v : Item, s.cellAt c = Cell.filled v → o.res = some (v, none)) ∧
      (s.cellAt c = Cell.closed → o.res = some (default, none)) ∧
      (s.cellAt c = Cell.empty → o.res = some (default, some Err.ctxCause)) ∧
      c ∉ s'.waiters.a ∧ c ∈ s'.chanPool := by
  have hnw : ∀ l : List Nat, c ∉ l.filter (fun w => !(w == c)) := by
    intro l hmem
    have h2 := List.of_mem_filter hmem
    simp at h2
  rcases hcell : s.cellAt c with - | w | -
  · have hstep : step s (Ev.takeCancel c) =
        some ({ s with
                waiters := ⟨s.waiters.a.filter (fun w => !(w == c))⟩,
                chanPool := c :: s.chanPool,
                outstanding := s.outstanding.erase c },
              { res := some (default, some Err.ctxCause) }) := by
      simp only [step]
      rw [if_pos hc, handleCancel_of_empty hcell]
    refine ⟨_, _, hstep, ?_, ?_, ?_, hnw _, List.mem_cons_self c _⟩
    · intro v hv
      cases hv
    · intro hv
      cases hv
    · intro _
      rfl
  · have hstep : step s (Ev.takeCancel c) =
        some ({ s with
                waiters := ⟨s.waiters.a.filter (fun v2 => !(v2 == c))⟩,
                cells := s.cells.set c Cell.empty,
                chanPool := c :: s.chanPool,
                outstanding := s.outstanding.erase c },
              { res := some (w, none) }) := by
      simp only [step]
      rw [if_pos hc, handleCancel_of_filled hcell]
    refine ⟨_, _, hstep, ?_, ?_, ?_, hnw _, List.mem_cons_self c _⟩
    · intro v hv
      injection hv with hv2
      rw [hv2]
    · intro hv
      cases hv
    · intro hv
      cases hv
  · have hstep : step s (Ev.takeCancel c) =
        some ({ s with
                waiters := ⟨s.waiters.a.filter (fun v2 => !(v2 == c))⟩,
                cells := s.cells.set c Cell.closed,
                chanPool := c :: s.chanPool,
                outstanding := s.outstanding.erase c },
              { res := some (default, none) }) := by
      simp only [step]
      rw [if_pos hc, handleCancel_of_closed hcell]
    refine ⟨_, _, hstep, ?_, ?_, ?_, hnw _, List.mem_cons_self c _⟩
    · intro v hv
      cases hv
    · intro _
      rfl
    · intro hv
      cases hv

theorem near_miss_amended_witness :
    ∃ s' o, step cexState (Ev.takeCancel 0) = some (s', o) ∧
      (∀ v : Nat, cexState.cellAt 0 = Cell.filled v → o.res = some (v, none)) ∧
      (cexState.cellAt 0 = Cell.closed → o.res = some (default, none)) ∧
      (cexState.cellAt 0 = Cell.empty →
        o.res = some (default, some Err.ctxCause)) ∧
      0 ∉ s'.waiters.a ∧ 0 ∈ s'.chanPool :=
  near_miss_amended cexState 0 (by decide)

/-- C1: strict FIFO service.  From any reachable state, along any trace of
registrations and handoffs, the k-th successful handoff serves exactly the
k-th cell of (still-queued waiters followed by newly registered waiters), and
at the end of the trace that cell holds exactly the value of its handoff:
the n-th still-queued waiter receives the value of the n-th subsequent
successful handoff. -/
theorem fifo_service_order {Item : Type} [Inhabited Item] (M W : Nat)
    {s s' : WList Item} (tr : List (Ev Item)) {os : List (Out Item)}
    (hreach : Reachable M W s) (halph : ∀ e ∈ tr, e.isRegOrPut = true)
    (h : run s tr = some (s', os)) :
    (handoffsOf os).map Prod.fst =
      (s.waiters.a ++ regsOf os).take (handoffsOf os).length ∧
    ∀ k (hk : k < (handoffsOf os).length),
      s'.cellAt ((handoffsOf os).get ⟨k, hk⟩).1 =
        Cell.filled ((handoffsOf os).get ⟨k, hk⟩).2 := by
  obtain ⟨hI, -, -⟩ := reachable_inv hreach
  obtain ⟨hA, hB⟩ := run_fifo hI halph h
  exact ⟨hA, fun k hk => hB _ (List.get_mem _ k hk)⟩

/-- Trace for the FIFO witness: serve the queued waiter 0 with 5, register
waiter 1, serve it with 7. -/
def fifoTr : List (Ev Nat) :=
  [Ev.put 5, Ev.takeEnter false true false, Ev.put 7]

def fifoOs : List (Out Nat) :=
  [{ handoff := some (0, 5) }, { reg := some 1 }, { handoff := some (1, 7) }]

def fifoEnd : WList Nat :=
  { MaxItems := 0, MaxWaiters := 0, ready := ⟨[]⟩, loads := 0, waiters := ⟨[]⟩,
    cells := [Cell.filled 5, Cell.filled 7], chanPool := [],
    outstanding := [1, 0], closed := false }

theorem fifo_service_order_witness :
    (∀ e ∈ fifoTr, e.isRegOrPut = true) ∧
    run wexState fifoTr = some (fifoEnd, fifoOs) ∧
    ((handoffsOf fifoOs).map Prod.fst =
      (wexState.waiters.a ++ regsOf fifoOs).take (handoffsOf fifoOs).length ∧
     ∀ k (hk : k < (handoffsOf fifoOs).length),
       fifoEnd.cellAt ((handoffsOf fifoOs).get ⟨k, hk⟩).1 =
         Cell.filled ((handoffsOf fifoOs).get ⟨k, hk⟩).2) :=
  ⟨by decide, by decide,
   fifo_service_order 0 0 fifoTr
     ⟨[Ev.takeEnter false true false], [{ reg := some 0 }], by decide⟩
     (by decide) (by decide)⟩

/-- C2: bounded lazy construction.  For a pool configured with
MaxItems = M > 0, along any event trace from the fresh pool, `loads` never
exceeds M and equals the total number of construction spawns; Put never
changes `loads`; and a spawn happens only when Take's entry registers a
waiter with the budget available (`loads < MaxItems`, or no limit),
incrementing `loads` by exactly one. -/
theorem bounded_construction {Item : Type} [Inhabited Item] (M W : Nat)
    (hM : 0 < M) (tr : List (Ev Item)) {s : WList Item} {os : List (Out Item)}
    (h : run (WList.init Item M W) tr = some (s, os)) :
    s.loads ≤ M ∧ spawnCount os = s.loads ∧
    (∀ (t : WList Item) (v : Item) (r : PutResult Item),
      PoolInv t → t.Put v = some r → r.state.loads = t.loads) ∧
    (∀ (t : WList Item) (d1 d2 ru : Bool),
      (t.takeEnter d1 d2 ru).spawned = true →
        (∃ c, (t.takeEnter d1 d2 ru).outcome = .registered c) ∧
        (t.MaxItems = 0 ∨ t.loads < t.MaxItems) ∧
        (t.takeEnter d1 d2 ru).state.loads = t.loads + 1) := by
  have h0 := inv_init Item M W
  obtain ⟨f1, f2, f3⟩ := run_frame h0 h
  refine ⟨?_, ?_, ?_, ?_⟩
  · have hle := (run_inv h0 h).loadsLe (by rw [f1]; exact hM)
    rw [f1] at hle
    exact hle
  · rw [f3]
    simp [WList.init]
  · exact fun t v r hII hput => (put_frame hII hput).2.2
  · intro t d1 d2 ru hsp
    obtain ⟨-, -, h3, h4⟩ := takeEnter_frame t d1 d2 ru
    obtain ⟨hreg, hbud⟩ := h4 hsp
    refine ⟨hreg, hbud, ?_⟩
    rw [h3, hsp]
    simp

def c2End : WList Nat :=
  { MaxItems := 1, MaxWaiters := 0, ready := ⟨[]⟩, loads := 1,
    waiters := ⟨[0, 1]⟩, cells := [Cell.empty, Cell.empty], chanPool := [],
    outstanding := [1, 0], closed := false }

def c2Os : List (Out Nat) :=
  [{ reg := some 0, spawned := true }, { reg := some 1 }]

theorem bounded_construction_witness :
    0 < 1 ∧
    run (WList.init Nat 1 0)
      [Ev.takeEnter false false false, Ev.takeEnter false false false] =
      some (c2End, c2Os) ∧
    (c2End.loads ≤ 1 ∧ spawnCount c2Os = c2End.loads ∧
     (∀ (t : WList Nat) (v : Nat) (r : PutResult Nat),
       PoolInv t → t.Put v = some r → r.state.loads = t.loads) ∧
     (∀ (t : WList Nat) (d1 d2 ru : Bool),
       (t.takeEnter d1 d2 ru).spawned = true →
         (∃ c, (t.takeEnter d1 d2 ru).outcome = .registered c) ∧
         (t.MaxItems = 0 ∨ t.loads < t.MaxItems) ∧
         (t.takeEnter d1 d2 ru).state.loads = t.loads + 1)) :=
  ⟨by decide, by decide,
   bounded_construction 1 0 (by decide)
     [Ev.takeEnter false false false, Ev.takeEnter false false false]
     (by decide)⟩
